import Mathlib

/-!
Binary reduce kernels of `src/kernel/cpu/binary_reduce_impl.h`.

A shallow embedding of the CPU binary-reduce kernels and of their index algebra.

Conventions of the embedding.

* `int64_t` and `Idx` values are `Int`.  C's `/` and `%` truncate toward zero, so
  they are `Int.tdiv` and `Int.tmod`; division by zero (undefined in C) takes
  Lean's total value.  No product of the kernels exceeds the size of the buffer
  it indexes, so no wrap-around is modelled.
* `int ndim` and the loop counter `int d` are `Nat`.
* A `const int64_t*` shape or stride array is a function `Nat → Int`; a data
  buffer `DType*` is a function `Int → α`; an id mapping `Idx*` is an
  `Option (Int → Int)`, `none` being the null pointer.
* The operand buffers and the output buffer are distinct fields of the state:
  the embedding assumes `out_data` does not alias `lhs_data` or `rhs_data`.
* In the dispatch, the arrays returned by `MergeIDMapping` are followed twice: by
  their content (`CallBinaryReduce`) and by the pointer and its owner
  (`CallBinaryReduce.pointers`).
* A `for (i = lo; i < lo + n; ++i)` loop is `forLoop body n lo`.
-/

namespace dgl
namespace kernel

/-- The loop `for (i = lo; i < lo + n; ++i) s = body i s`. -/
def forLoop {σ : Type} (body : Nat → σ → σ) : Nat → Nat → σ → σ
  | 0, _, s => s
  | n + 1, i, s => forLoop body n (i + 1) (body i s)

/-- An array given by the list of its first elements (zero beyond them). -/
def ofList (l : List Int) : Nat → Int := fun d => l.getD d 0

namespace cpu

/-- One iteration of either loop of `UnravelRavel`: `x_sh`, `x_st` are the shape
and stride of the operand being accumulated, `acc` its accumulator. -/
def UnravelRavel.step (idx : Int) (out_shape out_stride x_shape x_stride : Nat → Int)
    (d : Nat) (acc : Int) : Int :=
  let o_sh := out_shape d
  let o_st := out_stride d
  let x_sh := x_shape d
  let x_st := x_stride d
  let i := (idx.tdiv o_st).tmod o_sh
  if x_sh > i then acc + i * x_st else acc

/-- `UnravelRavel` (lines 92-130): returns the final `(*lhs_out, *rhs_out)` from
their initial contents `lhs_out`, `rhs_out`. -/
def UnravelRavel (idx : Int) (ndim : Nat) (out_shape out_stride : Nat → Int)
    (lhs_shape lhs_stride : Nat → Int) (rhs_shape rhs_stride : Nat → Int)
    (lhs_out rhs_out : Int) : Int × Int :=
  if out_stride 0 = lhs_stride 0 then
    let rhs_out := forLoop (UnravelRavel.step idx out_shape out_stride rhs_shape rhs_stride)
      ndim 0 rhs_out
    (idx, rhs_out)
  else
    let lhs_out := forLoop (UnravelRavel.step idx out_shape out_stride lhs_shape lhs_stride)
      ndim 0 lhs_out
    (lhs_out, idx)

/-- `Unravel` (lines 133-138): the contents of `out` after the call. -/
def Unravel (idx : Int) (ndim : Nat) (shape stride : Nat → Int) (out : Nat → Int) :
    Nat → Int :=
  forLoop (fun d out => Function.update out d ((idx.tdiv (stride d)).tmod (shape d))) ndim 0 out

/-- `Ravel` (lines 141-148). -/
def Ravel (idx : Nat → Int) (ndim : Nat) (shape stride : Nat → Int) : Int :=
  forLoop (fun d out => out + min (idx d) (shape d - 1) * stride d) ndim 0 0

end cpu

/-! ### Data model -/

/-- Modelled from the spec: `binary_op::Target` (declared outside src), the role tag
Source / Destination / Edge of an operand or of the output. -/
inductive Target where
  | kSrc
  | kDst
  | kEdge
  deriving DecidableEq, Repr

/-- Modelled from the spec: `SelectSrc::Call`, `SelectDst::Call`, `SelectEdge::Call` of
`functor.h` (not in src): Source returns `src`, Destination returns `dst`, Edge returns
the edge id. -/
def Target.Call : Target → Int → Int → Int → Int
  | .kSrc, src, _, _ => src
  | .kDst, _, _, dst => dst
  | .kEdge, _, edge, _ => edge

/-- Modelled from the spec: `GData<Idx, DType>` of `binary_reduce_impl_decl.h` (not in src),
with the fields the kernels and the dispatch read.  `lhs`, `rhs`, `out` are the arrays that
`CallBinaryReduce` passes to `MergeIDMapping` as the caller's mappings. -/
structure GData (α : Type) where
  x_length : Int
  data_len : Int
  lhs_data : Int → α
  rhs_data : Int → α
  out_data : Int → α
  lhs_mapping : Option (Int → Int)
  rhs_mapping : Option (Int → Int)
  out_mapping : Option (Int → Int)
  lhs : Int → Int
  rhs : Int → Int
  out : Int → Int

namespace cpu

/-- The template arguments of `FunctorsTempl`: the two operand selectors, the selector
`OutSelector<Reducer>::Type`, `BinaryOp::Call` (on the two operand pointers, seen as the
sub-vectors they point to, and `len`) and `Reducer::Call`, given as the new content of the
addressed slot in terms of its old content and of the value. -/
structure FunctorsTempl (α : Type) where
  LeftSelector : Target
  RightSelector : Target
  OutSelector : Target
  BinaryOp : (Int → α) → (Int → α) → Int → α
  Reducer : α → α → α

/-- `FunctorsTempl::SelectOut` (lines 229-232). -/
def FunctorsTempl.SelectOut {α : Type} (F : FunctorsTempl α) (src edge dst : Int) : Int :=
  F.OutSelector.Call src edge dst

/-- `FunctorsTempl::SelectLeft` (lines 233-236). -/
def FunctorsTempl.SelectLeft {α : Type} (F : FunctorsTempl α) (src edge dst : Int) : Int :=
  F.LeftSelector.Call src edge dst

/-- `FunctorsTempl::SelectRight` (lines 237-240). -/
def FunctorsTempl.SelectRight {α : Type} (F : FunctorsTempl α) (src edge dst : Int) : Int :=
  F.RightSelector.Call src edge dst

/-- `FunctorsTempl::Op` (lines 241-243). -/
def FunctorsTempl.Op {α : Type} (F : FunctorsTempl α) (lhs rhs : Int → α) (len : Int) : α :=
  F.BinaryOp lhs rhs len

/-- `FunctorsTempl::Write` (lines 244-246) on the buffer `mem` that holds the slot `addr`. -/
def FunctorsTempl.Write {α : Type} (F : FunctorsTempl α) (mem : Int → α) (addr : Int)
    (val : α) : Int → α :=
  Function.update mem addr (F.Reducer (mem addr) val)

/-- `FunctorsTempl::GetId` (lines 247-249). -/
def FunctorsTempl.GetId (id : Int) (id_map : Int → Int) : Int := id_map id

/-- The pointer `base + off` into a buffer, seen as the sub-vector it points to. -/
def ptr {α : Type} (base : Int → α) (off : Int) : Int → α := fun k => base (off + k)

/-- `BinaryReduce::ApplyEdge` (lines 25-48). -/
def BinaryReduce.ApplyEdge {α : Type} (F : FunctorsTempl α) (src dst eid : Int)
    (gdata : GData α) : GData α :=
  let D := gdata.x_length
  let len := gdata.data_len
  let lid := FunctorsTempl.SelectLeft F src eid dst
  let rid := FunctorsTempl.SelectRight F src eid dst
  let oid := FunctorsTempl.SelectOut F src eid dst
  let lid := match gdata.lhs_mapping with
    | some m => FunctorsTempl.GetId lid m
    | none => lid
  let rid := match gdata.rhs_mapping with
    | some m => FunctorsTempl.GetId rid m
    | none => rid
  let oid := match gdata.out_mapping with
    | some m => FunctorsTempl.GetId oid m
    | none => oid
  let lhsoff := lid * D * len
  let rhsoff := rid * D * len
  let outoff := oid * D
  { gdata with
    out_data := forLoop (fun tx out_data =>
        let out := FunctorsTempl.Op F (ptr gdata.lhs_data (lhsoff + tx * len))
          (ptr gdata.rhs_data (rhsoff + tx * len)) len
        FunctorsTempl.Write F out_data (outoff + tx) out)
      D.toNat 0 gdata.out_data }

end cpu

/-! ### Traversal and policies used by the properties -/

/-- An edge triple handed to the kernel by the traversal. -/
structure Edge where
  src : Int
  dst : Int
  eid : Int
  deriving DecidableEq, Repr

/-- Modelled from the spec: the external traversal (`minigun::advance::Advance`, not in src)
invokes `ApplyEdge` once per edge; here in the order of the list. -/
def applyEdges {α : Type} (F : cpu.FunctorsTempl α) (edges : List Edge) (gdata : GData α) :
    GData α :=
  edges.foldl (fun g e => cpu.BinaryReduce.ApplyEdge F e.src e.dst e.eid g) gdata

/-- An id translated through a mapping when the mapping is present. -/
def translate (m : Option (Int → Int)) (id : Int) : Int :=
  match m with
  | some f => f id
  | none => id

/-- The output row of an edge: the id chosen by the output selector, translated through
`out_mapping` when present. -/
def outRow {α : Type} (F : cpu.FunctorsTempl α) (g : GData α) (e : Edge) : Int :=
  translate g.out_mapping (F.SelectOut e.src e.eid e.dst)

/-- The value of column `tx` of an edge: the operator on the `data_len`-sized sub-vectors of
the (translated) left and right rows at that column. -/
def edgeValue {α : Type} (F : cpu.FunctorsTempl α) (g : GData α) (e : Edge) (tx : Int) : α :=
  F.Op
    (cpu.ptr g.lhs_data (translate g.lhs_mapping (F.SelectLeft e.src e.eid e.dst)
      * g.x_length * g.data_len + tx * g.data_len))
    (cpu.ptr g.rhs_data (translate g.rhs_mapping (F.SelectRight e.src e.eid e.dst)
      * g.x_length * g.data_len + tx * g.data_len))
    g.data_len

/-- What one edge does to the content `acc` of the slot `p` of `out_data`: one `Write` of the
edge's value when `p` is a column of the edge's output row, nothing otherwise. -/
def slotStep {α : Type} (F : cpu.FunctorsTempl α) (g : GData α) (p : Int) (acc : α)
    (e : Edge) : α :=
  if 0 ≤ p - outRow F g e * g.x_length ∧ p - outRow F g e * g.x_length < g.x_length
  then F.Reducer acc (edgeValue F g e (p - outRow F g e * g.x_length))
  else acc

/-- Modelled from the spec: the operator `BinaryAdd` of `functor.h` (not in src), the sum
of the two operand elements. -/
def BinaryAdd {α : Type} [Add α] (lhs rhs : Int → α) (_len : Int) : α := lhs 0 + rhs 0

/-- Modelled from the spec: the accumulate-sum reducer `ReduceSum` of `functor.h` (not in
src), `*addr += val`. -/
def ReduceSum {α : Type} [Add α] (old val : α) : α := old + val

/-- Modelled from the spec: the accumulate-max reducer `ReduceMax` of `functor.h` (not in
src), `*addr = max(*addr, val)`. -/
def ReduceMax {α : Type} [Max α] (old val : α) : α := max old val

/-- Modelled from the spec: the overwrite reducer `ReduceNone` of `functor.h` (not in src),
`*addr = val`. -/
def ReduceNone {α : Type} (_old val : α) : α := val

/-! ### Dispatch -/

/-- Modelled from the spec: `BcastGData<NDim, Idx, DType>` of `binary_reduce_impl_decl.h`
(not in src), with the fields the kernels and the dispatch read. -/
structure BcastGData (α : Type) where
  ndim : Nat
  lhs_len : Int
  rhs_len : Int
  out_len : Int
  lhs_shape : Nat → Int
  lhs_stride : Nat → Int
  rhs_shape : Nat → Int
  rhs_stride : Nat → Int
  out_shape : Nat → Int
  out_stride : Nat → Int
  data_len : Int
  lhs_data : Int → α
  rhs_data : Int → α
  out_data : Int → α
  lhs_mapping : Option (Int → Int)
  rhs_mapping : Option (Int → Int)
  out_mapping : Option (Int → Int)
  lhs : Int → Int
  rhs : Int → Int
  out : Int → Int

/-- Modelled from the spec: the result of `GetCOOMatrix()`, `{row[], col[], data[]}`, `data`
being the native edge-id array. -/
structure COOMatrix where
  row : Int → Int
  col : Int → Int
  data : Int → Int

/-- Modelled from the spec: the result of `GetInCSRMatrix()`, `{indptr[], indices[], data[]}`,
`data` being the native edge-id array of that orientation. -/
structure CSRMatrix where
  indptr : Int → Int
  indices : Int → Int
  data : Int → Int

/-- Modelled from the spec: the graph collaborator `SparseMatrixWrapper` (not in src), by the
two matrices it hands out. -/
structure SparseMatrixWrapper where
  GetCOOMatrix : COOMatrix
  GetInCSRMatrix : CSRMatrix

/-- Modelled from the spec: `minigun::Coo`, built by `utils::CreateCoo(row, col)`. -/
structure Coo where
  row : Int → Int
  column : Int → Int

/-- Modelled from the spec: `minigun::Csr`, built by `utils::CreateCsr(indptr, indices)`. -/
structure Csr where
  row_offsets : Int → Int
  column_indices : Int → Int

/-- Modelled from the spec: `minigun::SpMat`, three optional formats; the dispatch fills
`{NULL, NULL, &coo}` or `{NULL, &csr, NULL}`. -/
structure SpMat where
  csr : Option Csr
  csr_t : Option Csr
  coo : Option Coo

/-- The traversal orientations `AdvanceSrcConfig`, `AdvanceEdgeConfig`, `AdvanceDstConfig`
(lines 252-254). -/
inductive AdvanceConfig where
  | AdvanceSrcConfig
  | AdvanceEdgeConfig
  | AdvanceDstConfig
  deriving DecidableEq, Repr

/-- Calls made to the collaborators, as recorded by the model of the dispatch. -/
inductive Event (Cfg G : Type) where
  | GetCOOMatrix : Event Cfg G
  | GetInCSRMatrix : Event Cfg G
  | Advance (rtcfg : Cfg) (config : AdvanceConfig) (spmat : SpMat) (gdata : G) : Event Cfg G

/-- Whether an event is an invocation of the traversal. -/
def Event.isAdvance {Cfg G : Type} : Event Cfg G → Bool
  | .Advance _ _ _ _ => true
  | _ => false

/-- Whether an event is a request for a topology. -/
def Event.isTopology {Cfg G : Type} : Event Cfg G → Bool
  | .GetCOOMatrix => true
  | .GetInCSRMatrix => true
  | _ => false

/-- Outcome of a dispatch call: the message of the failed `CHECK` if any, the bundle after
the call, and the calls made to the collaborators in order. -/
structure CallResult (Cfg G : Type) where
  error : Option String
  gdata : G
  trace : List (Event Cfg G)

/-- Modelled from the spec: `aten::MergeIDMapping(nativeMapping, callerMapping)` (not in src),
`composedMapping[i] = nativeMapping[callerMapping[i]]`. -/
def MergeIDMapping (nativeMapping callerMapping : Int → Int) : Int → Int :=
  fun i => nativeMapping (callerMapping i)

/-- `CallBinaryReduce` (lines 262-341).  `Advance` is the external traversal, given by its
effect on the bundle.  A mapping of the bundle is here the content written behind the
pointer at the time of the assignment; which array a pointer refers to, and whether that
array is still owned at the call of `Advance`, is followed by `CallBinaryReduce.pointers`. -/
def CallBinaryReduce {α Cfg : Type} (F : cpu.FunctorsTempl α)
    (Advance : Cfg → AdvanceConfig → SpMat → GData α → GData α)
    (rtcfg : Cfg) (graph : SparseMatrixWrapper) (gdata : GData α) :
    CallResult Cfg (GData α) :=
  if F.OutSelector = Target.kEdge then
    let coo_matrix := graph.GetCOOMatrix
    let coo : Coo := ⟨coo_matrix.row, coo_matrix.col⟩
    let gdata :=
      if F.LeftSelector = Target.kEdge then
        match gdata.lhs_mapping with
        | none => { gdata with lhs_mapping := some coo_matrix.data }
        | some _ => { gdata with lhs_mapping := some (MergeIDMapping coo_matrix.data gdata.lhs) }
      else gdata
    let gdata :=
      if F.RightSelector = Target.kEdge then
        match gdata.rhs_mapping with
        | none => { gdata with rhs_mapping := some coo_matrix.data }
        | some _ => { gdata with rhs_mapping := some (MergeIDMapping coo_matrix.data gdata.rhs) }
      else gdata
    let gdata :=
      match gdata.out_mapping with
      | none => { gdata with out_mapping := some coo_matrix.data }
      | some _ => { gdata with out_mapping := some (MergeIDMapping coo_matrix.data gdata.out) }
    let spmat : SpMat := ⟨none, none, some coo⟩
    { error := none
      gdata := Advance rtcfg .AdvanceEdgeConfig spmat gdata
      trace := [.GetCOOMatrix, .Advance rtcfg .AdvanceEdgeConfig spmat gdata] }
  else if F.OutSelector = Target.kSrc then
    { error := some "BinaryReduce target should not be kSrc", gdata := gdata, trace := [] }
  else if F.OutSelector = Target.kDst then
    let incsr := graph.GetInCSRMatrix
    let csr : Csr := ⟨incsr.indptr, incsr.indices⟩
    let gdata :=
      if F.LeftSelector = Target.kEdge then
        match gdata.lhs_mapping with
        | none => { gdata with lhs_mapping := some incsr.data }
        | some _ => { gdata with lhs_mapping := some (MergeIDMapping incsr.data gdata.lhs) }
      else gdata
    let gdata :=
      if F.RightSelector = Target.kEdge then
        match gdata.rhs_mapping with
        | none => { gdata with rhs_mapping := some incsr.data }
        | some _ => { gdata with rhs_mapping := some (MergeIDMapping incsr.data gdata.rhs) }
      else gdata
    let spmat : SpMat := ⟨none, some csr, none⟩
    { error := none
      gdata := Advance rtcfg .AdvanceDstConfig spmat gdata
      trace := [.GetInCSRMatrix, .Advance rtcfg .AdvanceDstConfig spmat gdata] }
  else
    { error := none, gdata := gdata, trace := [] }

/-- `CallBinaryReduceBcast` (lines 347-432).  `Advance` is the external traversal, given by
its effect on the bundle. -/
def CallBinaryReduceBcast {α Cfg : Type} (F : cpu.FunctorsTempl α)
    (Advance : Cfg → AdvanceConfig → SpMat → BcastGData α → BcastGData α)
    (rtcfg : Cfg) (graph : SparseMatrixWrapper) (gdata : BcastGData α) :
    CallResult Cfg (BcastGData α) :=
  if F.OutSelector = Target.kEdge then
    let coo_matrix := graph.GetCOOMatrix
    let coo : Coo := ⟨coo_matrix.row, coo_matrix.col⟩
    let gdata :=
      if F.LeftSelector = Target.kEdge then
        match gdata.lhs_mapping with
        | none => { gdata with lhs_mapping := some coo_matrix.data }
        | some _ =>
          let target_mapping := coo_matrix.data
          { gdata with lhs_mapping := some (MergeIDMapping target_mapping gdata.lhs) }
      else gdata
    let gdata :=
      if F.RightSelector = Target.kEdge then
        match gdata.rhs_mapping with
        | none => { gdata with rhs_mapping := some coo_matrix.data }
        | some _ =>
          let target_mapping := coo_matrix.data
          { gdata with rhs_mapping := some (MergeIDMapping target_mapping gdata.rhs) }
      else gdata
    let gdata :=
      match gdata.out_mapping with
      | none => { gdata with out_mapping := some coo_matrix.data }
      | some _ =>
        let target_mapping := coo_matrix.data
        { gdata with out_mapping := some (MergeIDMapping target_mapping gdata.out) }
    let spmat : SpMat := ⟨none, none, some coo⟩
    { error := none
      gdata := Advance rtcfg .AdvanceEdgeConfig spmat gdata
      trace := [.GetCOOMatrix, .Advance rtcfg .AdvanceEdgeConfig spmat gdata] }
  else if F.OutSelector = Target.kSrc then
    { error := some "BinaryReduceBcast target should not be kSrc", gdata := gdata, trace := [] }
  else if F.OutSelector = Target.kDst then
    let incsr := graph.GetInCSRMatrix
    let csr : Csr := ⟨incsr.indptr, incsr.indices⟩
    let gdata :=
      if F.LeftSelector = Target.kEdge then
        match gdata.lhs_mapping with
        | none => { gdata with lhs_mapping := some incsr.data }
        | some _ =>
          let target_mapping := incsr.data
          { gdata with lhs_mapping := some (MergeIDMapping target_mapping gdata.lhs) }
      else gdata
    let gdata :=
      if F.RightSelector = Target.kEdge then
        match gdata.rhs_mapping with
        | none => { gdata with rhs_mapping := some incsr.data }
        | some _ =>
          let target_mapping := incsr.data
          { gdata with rhs_mapping := some (MergeIDMapping target_mapping gdata.rhs) }
      else gdata
    let spmat : SpMat := ⟨none, some csr, none⟩
    { error := none
      gdata := Advance rtcfg .AdvanceDstConfig spmat gdata
      trace := [.GetInCSRMatrix, .Advance rtcfg .AdvanceDstConfig spmat gdata] }
  else
    { error := none, gdata := gdata, trace := [] }

/-- The bundles that the dispatch handed to the traversal, in order. -/
def advancedBundles {Cfg G : Type} : List (Event Cfg G) → List G
  | [] => []
  | .Advance _ _ _ g :: es => g :: advancedBundles es
  | _ :: es => advancedBundles es

/-- What a mapping pointer of the bundle refers to while `CallBinaryReduce` runs: the array
the caller put behind it, the `data` array of the requested matrix (`coo_matrix.data` or
`incsr.data`), or the array returned by the `k`-th call of `MergeIDMapping` (counted from 0). -/
inductive MapPtr where
  | caller
  | native
  | merged (k : Nat)
  deriving DecidableEq, Repr

/-- Modelled from the spec: the ownership of the arrays of a dispatch.  `runtime::NDArray`
(not in src) is the array container that owns its buffer; the local handle `out_map` is the
only owner of an array returned by `MergeIDMapping`, so assigning it the next merge result
releases the one it held.  `out_map` is the merge result the handle owns, `merges` the
number of calls of `MergeIDMapping` so far; the three pointers are those of the bundle. -/
structure DispatchPtrs where
  lhs_mapping : Option MapPtr
  rhs_mapping : Option MapPtr
  out_mapping : Option MapPtr
  out_map : Option Nat
  merges : Nat
  deriving DecidableEq, Repr

/-- Whether the array behind a pointer is still allocated: the caller's arrays and the
matrix data are, a merge result is as long as the handle `out_map` owns it. -/
def DispatchPtrs.live (p : DispatchPtrs) : MapPtr → Bool
  | .caller => true
  | .native => true
  | .merged k => decide (p.out_map = some k)

/-- The mapping statements of `CallBinaryReduce` (lines 270-340) on the pointers of the
bundle and on the handle `out_map`, up to the call of `Advance`: the result is what the
traversal is handed, `none` when the dispatch fails before (output role Source). -/
def CallBinaryReduce.pointers {α : Type} (F : cpu.FunctorsTempl α) (gdata : GData α) :
    Option DispatchPtrs :=
  let p : DispatchPtrs :=
    { lhs_mapping := gdata.lhs_mapping.map (fun _ => MapPtr.caller)
      rhs_mapping := gdata.rhs_mapping.map (fun _ => MapPtr.caller)
      out_mapping := gdata.out_mapping.map (fun _ => MapPtr.caller)
      out_map := none
      merges := 0 }
  if F.OutSelector = Target.kEdge then
    let p :=
      if F.LeftSelector = Target.kEdge then
        match p.lhs_mapping with
        | none => { p with lhs_mapping := some MapPtr.native }
        | some _ =>
          { p with out_map := some p.merges, merges := p.merges + 1,
                   lhs_mapping := some (MapPtr.merged p.merges) }
      else p
    let p :=
      if F.RightSelector = Target.kEdge then
        match p.rhs_mapping with
        | none => { p with rhs_mapping := some MapPtr.native }
        | some _ =>
          { p with out_map := some p.merges, merges := p.merges + 1,
                   rhs_mapping := some (MapPtr.merged p.merges) }
      else p
    let p :=
      match p.out_mapping with
      | none => { p with out_mapping := some MapPtr.native }
      | some _ =>
        { p with out_map := some p.merges, merges := p.merges + 1,
                 out_mapping := some (MapPtr.merged p.merges) }
    some p
  else if F.OutSelector = Target.kSrc then
    none
  else if F.OutSelector = Target.kDst then
    let p :=
      if F.LeftSelector = Target.kEdge then
        match p.lhs_mapping with
        | none => { p with lhs_mapping := some MapPtr.native }
        | some _ =>
          { p with out_map := some p.merges, merges := p.merges + 1,
                   lhs_mapping := some (MapPtr.merged p.merges) }
      else p
    let p :=
      if F.RightSelector = Target.kEdge then
        match p.rhs_mapping with
        | none => { p with rhs_mapping := some MapPtr.native }
        | some _ =>
          { p with out_map := some p.merges, merges := p.merges + 1,
                   rhs_mapping := some (MapPtr.merged p.merges) }
      else p
    some p
  else
    some p

/-- A graph whose COO edge ids are reversed and whose in-CSR edge ids are shifted. -/
def sampleGraph : SparseMatrixWrapper where
  GetCOOMatrix := ⟨fun i => i, fun i => i + 1, fun i => 2 - i⟩
  GetInCSRMatrix := ⟨fun i => i, fun i => i, fun i => i + 10⟩

/-- A bundle for an edge-targeted output whose left operand lives on the edges, with the
caller's mappings `i ↦ i + 1` for the left operand and `i ↦ 2 - i` for the output; `lhs` and
`out` are those arrays. -/
def twoMappingData : GData Int where
  x_length := 1
  data_len := 1
  lhs_data := fun i => 10 * i + 3
  rhs_data := fun i => 100 * i + 7
  out_data := fun _ => 0
  lhs_mapping := some (fun i => i + 1)
  rhs_mapping := none
  out_mapping := some (fun i => 2 - i)
  lhs := fun i => i + 1
  rhs := fun i => i
  out := fun i => 2 - i

/-- The path graph `0 → 1 → 2`. -/
def pathGraph : List Edge := [⟨0, 1, 0⟩, ⟨1, 2, 1⟩]

/-- Integer node features for the path graph, one scalar per node, no mapping. -/
def pathData : GData Int where
  x_length := 1
  data_len := 1
  lhs_data := fun i => 10 * i + 3
  rhs_data := fun i => 100 * i + 7
  out_data := fun i => 1000 + i
  lhs_mapping := none
  rhs_mapping := none
  out_mapping := none
  lhs := fun i => i
  rhs := fun i => i
  out := fun i => i

/-- The mapping array `[5, 6, 7]`. -/
def map567 : Int → Int := fun i => ([5, 6, 7] : List Int).getD i.toNat 0

/-- Two edges into the same destination node 2. -/
def fanIn : List Edge := [⟨0, 2, 0⟩, ⟨1, 2, 1⟩]

/-! ### Single-column kernels, accessors and the broadcast kernel -/

namespace cpu

/-- `BinaryReduce::ApplyEdgeReduce` (lines 50-67): the content of `*outval` after the call,
from its content `outval` before.  Lines 55 and 64 name `ddst` and `rhd`, which the source
declares nowhere; they are taken as two further values, of which nothing is known.  The
translated `rid` of lines 59-61 is not read afterwards. -/
def BinaryReduce.ApplyEdgeReduce {α : Type} (F : FunctorsTempl α) (ddst rhd : Int)
    (src dst eid feat_idx : Int) (outval : α) (gdata : GData α) : α :=
  let D := gdata.x_length
  let len := gdata.data_len
  let lid := FunctorsTempl.SelectLeft F src eid dst
  let rid := FunctorsTempl.SelectRight F src eid ddst
  let lid := match gdata.lhs_mapping with
    | some m => FunctorsTempl.GetId lid m
    | none => lid
  let _rid := match gdata.rhs_mapping with
    | some m => FunctorsTempl.GetId rid m
    | none => rid
  let lhsoff := lid * D * len
  let rhsoff := rhd * D * len
  let out := FunctorsTempl.Op F (ptr gdata.lhs_data (lhsoff + feat_idx * len))
    (ptr gdata.rhs_data (rhsoff + feat_idx * len)) len
  FunctorsTempl.Write F (fun _ => outval) 0 out 0

/-- `BinaryReduce::GetFeatSize` (lines 69-71). -/
def BinaryReduce.GetFeatSize {α : Type} (gdata : GData α) : Int := gdata.x_length

/-- `BinaryReduce::GetOutBuf` (lines 73-75). -/
def BinaryReduce.GetOutBuf {α : Type} (gdata : GData α) : Int → α := gdata.out_data

/-- `BinaryReduce::GetOutOffset` (lines 77-82).  Line 79 calls `Functors::GetID`, a member
that `FunctorsTempl` does not have (it has `GetId`); it is taken as a further function
`GetID`, of which nothing is known. -/
def BinaryReduce.GetOutOffset {α : Type} (GetID : Int → (Int → Int) → Int) (oid : Int)
    (gdata : GData α) : Int :=
  match gdata.out_mapping with
  | some m => GetID oid m
  | none => oid

/-- `BinaryReduceBcast::ApplyEdge` (lines 153-181). -/
def BinaryReduceBcast.ApplyEdge {α : Type} (F : FunctorsTempl α) (src dst eid : Int)
    (gdata : BcastGData α) : BcastGData α :=
  let len := gdata.data_len
  let lid := FunctorsTempl.SelectLeft F src eid dst
  let rid := FunctorsTempl.SelectRight F src eid dst
  let oid := FunctorsTempl.SelectOut F src eid dst
  let lid := match gdata.lhs_mapping with
    | some m => FunctorsTempl.GetId lid m
    | none => lid
  let rid := match gdata.rhs_mapping with
    | some m => FunctorsTempl.GetId rid m
    | none => rid
  let oid := match gdata.out_mapping with
    | some m => FunctorsTempl.GetId oid m
    | none => oid
  let lhsoff := lid * gdata.lhs_len * len
  let rhsoff := rid * gdata.rhs_len * len
  let outoff := oid * gdata.out_len
  { gdata with
    out_data := forLoop (fun tx out_data =>
        let lhs_add : Int := 0
        let rhs_add : Int := 0
        let r := UnravelRavel tx gdata.ndim gdata.out_shape gdata.out_stride
          gdata.lhs_shape gdata.lhs_stride gdata.rhs_shape gdata.rhs_stride lhs_add rhs_add
        let lhs_add := r.1
        let rhs_add := r.2
        let out := FunctorsTempl.Op F (ptr gdata.lhs_data (lhsoff + lhs_add * len))
          (ptr gdata.rhs_data (rhsoff + rhs_add * len)) len
        let outaddr := outoff + tx
        FunctorsTempl.Write F out_data outaddr out)
      gdata.out_len.toNat 0 gdata.out_data }

/-- `BinaryReduceBcast::ApplyEdgeReduce` (lines 183-204): the content of `*outval` after the
call, from its content `outval` before. -/
def BinaryReduceBcast.ApplyEdgeReduce {α : Type} (F : FunctorsTempl α)
    (src dst eid feat_idx : Int) (outval : α) (gdata : BcastGData α) : α :=
  let len := gdata.data_len
  let lid := FunctorsTempl.SelectLeft F src eid dst
  let rid := FunctorsTempl.SelectRight F src eid dst
  let lid := match gdata.lhs_mapping with
    | some m => FunctorsTempl.GetId lid m
    | none => lid
  let rid := match gdata.rhs_mapping with
    | some m => FunctorsTempl.GetId rid m
    | none => rid
  let lhsoff := lid * gdata.lhs_len * len
  let rhsoff := rid * gdata.rhs_len * len
  let lhs_add : Int := 0
  let rhs_add : Int := 0
  let r := UnravelRavel feat_idx gdata.ndim gdata.out_shape gdata.out_stride
    gdata.lhs_shape gdata.lhs_stride gdata.rhs_shape gdata.rhs_stride lhs_add rhs_add
  let lhs_add := r.1
  let rhs_add := r.2
  let out := FunctorsTempl.Op F (ptr gdata.lhs_data (lhsoff + lhs_add * len))
    (ptr gdata.rhs_data (rhsoff + rhs_add * len)) len
  FunctorsTempl.Write F (fun _ => outval) 0 out 0

/-- `BinaryReduceBcast::GetFeatSize` (lines 206-208). -/
def BinaryReduceBcast.GetFeatSize {α : Type} (gdata : BcastGData α) : Int := gdata.out_len

/-- `BinaryReduceBcast::GetOutBuf` (lines 210-212). -/
def BinaryReduceBcast.GetOutBuf {α : Type} (gdata : BcastGData α) : Int → α := gdata.out_data

/-- `BinaryReduceBcast::GetOutOffset` (lines 214-220). -/
def BinaryReduceBcast.GetOutOffset {α : Type} (oid : Int) (gdata : BcastGData α) : Int :=
  match gdata.out_mapping with
  | some m => FunctorsTempl.GetId oid m
  | none => oid

end cpu

/-- The plain bundle with the buffers, mappings and `data_len` of a broadcast bundle and
`x_length = out_len`. -/
def BcastGData.toGData {α : Type} (b : BcastGData α) : GData α where
  x_length := b.out_len
  data_len := b.data_len
  lhs_data := b.lhs_data
  rhs_data := b.rhs_data
  out_data := b.out_data
  lhs_mapping := b.lhs_mapping
  rhs_mapping := b.rhs_mapping
  out_mapping := b.out_mapping
  lhs := b.lhs
  rhs := b.rhs
  out := b.out

/-- The output row of an edge in the broadcast kernel: the id chosen by the output selector,
translated through `out_mapping` when present. -/
def bcastOutRow {α : Type} (F : cpu.FunctorsTempl α) (b : BcastGData α) (e : Edge) : Int :=
  translate b.out_mapping (F.SelectOut e.src e.eid e.dst)

/-- The value of output column `tx` of an edge in the broadcast kernel: the operator on the
sub-vectors of the (translated) left and right rows at the offsets that `UnravelRavel`
returns for `tx` from zeroed accumulators. -/
def bcastEdgeValue {α : Type} (F : cpu.FunctorsTempl α) (b : BcastGData α) (e : Edge)
    (tx : Int) : α :=
  F.Op
    (cpu.ptr b.lhs_data (translate b.lhs_mapping (F.SelectLeft e.src e.eid e.dst)
      * b.lhs_len * b.data_len
      + (cpu.UnravelRavel tx b.ndim b.out_shape b.out_stride b.lhs_shape b.lhs_stride
          b.rhs_shape b.rhs_stride 0 0).1 * b.data_len))
    (cpu.ptr b.rhs_data (translate b.rhs_mapping (F.SelectRight e.src e.eid e.dst)
      * b.rhs_len * b.data_len
      + (cpu.UnravelRavel tx b.ndim b.out_shape b.out_stride b.lhs_shape b.lhs_stride
          b.rhs_shape b.rhs_stride 0 0).2 * b.data_len))
    b.data_len

/-- A broadcast bundle over integers: output `[2,3]`, left operand `[2,1]`, right operand
`[2,3]`, one scalar per element, no mapping. -/
def bcastData : BcastGData Int where
  ndim := 2
  lhs_len := 2
  rhs_len := 6
  out_len := 6
  lhs_shape := ofList [2, 1]
  lhs_stride := ofList [1, 1]
  rhs_shape := ofList [2, 3]
  rhs_stride := ofList [3, 1]
  out_shape := ofList [2, 3]
  out_stride := ofList [3, 1]
  data_len := 1
  lhs_data := fun i => 10 * i + 3
  rhs_data := fun i => 100 * i + 7
  out_data := fun i => 1000 + i
  lhs_mapping := none
  rhs_mapping := none
  out_mapping := none
  lhs := fun i => i
  rhs := fun i => i
  out := fun i => i

/-- A broadcast bundle in which no dimension broadcasts: all three shapes are `[2,3]`. -/
def plainBcastData : BcastGData Int where
  ndim := 2
  lhs_len := 6
  rhs_len := 6
  out_len := 6
  lhs_shape := ofList [2, 3]
  lhs_stride := ofList [3, 1]
  rhs_shape := ofList [2, 3]
  rhs_stride := ofList [3, 1]
  out_shape := ofList [2, 3]
  out_stride := ofList [3, 1]
  data_len := 1
  lhs_data := fun i => 10 * i + 3
  rhs_data := fun i => 100 * i + 7
  out_data := fun i => 1000 + i
  lhs_mapping := none
  rhs_mapping := none
  out_mapping := none
  lhs := fun i => i
  rhs := fun i => i
  out := fun i => i

/-- A broadcast bundle in which both operands broadcast: output `[2,3]`, left operand
`[2,1]`, right operand `[1,3]`. -/
def crossBcastData : BcastGData Int where
  ndim := 2
  lhs_len := 2
  rhs_len := 3
  out_len := 6
  lhs_shape := ofList [2, 1]
  lhs_stride := ofList [1, 1]
  rhs_shape := ofList [1, 3]
  rhs_stride := ofList [3, 1]
  out_shape := ofList [2, 3]
  out_stride := ofList [3, 1]
  data_len := 1
  lhs_data := fun i => 10 * i + 3
  rhs_data := fun i => 100 * i + 7
  out_data := fun i => 1000 + i
  lhs_mapping := none
  rhs_mapping := none
  out_mapping := none
  lhs := fun i => i
  rhs := fun i => i
  out := fun i => i

/-- The identity mapping array `[0, 1, 2]`. -/
def map012 : Int → Int := fun i => ([0, 1, 2] : List Int).getD i.toNat 0

/-! ### Vocabulary of the specification for shapes -/

/-- Row-major strides: `stride[ndim-1] = 1` and `stride[d] = stride[d+1] * shape[d+1]`. -/
def RowMajor (ndim : Nat) (shape stride : Nat → Int) : Prop :=
  ∀ d < ndim, (d + 1 = ndim → stride d = 1) ∧
    (d + 1 < ndim → stride d = stride (d + 1) * shape (d + 1))

instance (ndim : Nat) (shape stride : Nat → Int) : Decidable (RowMajor ndim shape stride) := by
  unfold RowMajor; infer_instance

/-- All `ndim` entries of the shape are positive. -/
def PosShape (ndim : Nat) (shape : Nat → Int) : Prop := ∀ d < ndim, 0 < shape d

instance (ndim : Nat) (shape : Nat → Int) : Decidable (PosShape ndim shape) := by
  unfold PosShape; infer_instance

/-- Number of elements of a shape, `prod(shape)`. -/
def numel (ndim : Nat) (shape : Nat → Int) : Int := ∏ d in Finset.range ndim, shape d

/-- Broadcast rule of `BcastGData`: each operand extent is the output extent or 1,
and the output extent is the larger of the two. -/
def BcastCompatible (ndim : Nat) (out_shape lhs_shape rhs_shape : Nat → Int) : Prop :=
  ∀ d < ndim, (lhs_shape d = out_shape d ∨ lhs_shape d = 1) ∧
    (rhs_shape d = out_shape d ∨ rhs_shape d = 1) ∧
    out_shape d = max (lhs_shape d) (rhs_shape d)

instance (ndim : Nat) (o l r : Nat → Int) : Decidable (BcastCompatible ndim o l r) := by
  unfold BcastCompatible; infer_instance

/-! ### Loops -/

theorem forLoop_succ_last {σ : Type} (body : Nat → σ → σ) (n lo : Nat) (s : σ) :
    forLoop body (n + 1) lo s = body (lo + n) (forLoop body n lo s) := by
  induction n generalizing lo s with
  | zero => rfl
  | succ n ih =>
    show forLoop body (n + 1) (lo + 1) (body lo s) = _
    rw [ih]
    have : lo + 1 + n = lo + (n + 1) := by omega
    rw [this]
    rfl

theorem forLoop_congr {σ : Type} (body body' : Nat → σ → σ) (n lo : Nat) (s : σ)
    (h : ∀ i s, lo ≤ i → i < lo + n → body i s = body' i s) :
    forLoop body n lo s = forLoop body' n lo s := by
  induction n generalizing lo s with
  | zero => rfl
  | succ n ih =>
    show forLoop body n (lo + 1) (body lo s) = forLoop body' n (lo + 1) (body' lo s)
    rw [h lo s (le_refl _) (by omega)]
    exact ih _ _ (fun i s h1 h2 => h i s (by omega) (by omega))

theorem forLoop_add_sum (f : Nat → Int) (n lo : Nat) (acc : Int) :
    forLoop (fun d acc => acc + f d) n lo acc = acc + ∑ j in Finset.Ico lo (lo + n), f j := by
  induction n generalizing lo acc with
  | zero => simp [forLoop]
  | succ n ih =>
    show forLoop (fun d acc => acc + f d) n (lo + 1) (acc + f lo) = _
    rw [ih]
    have h1 : lo + 1 + n = lo + (n + 1) := by omega
    rw [h1, Finset.sum_eq_sum_Ico_succ_bot (by omega : lo < lo + (n + 1))]
    ring

/-! ### Arithmetic of row-major strides -/

theorem mixed_radix_step (a b c : Int) (ha : 0 ≤ a) (hb : 0 ≤ b) (hc : 0 ≤ c) :
    (a / b % c) * b + a % b = a % (b * c) := by
  lift a to ℕ using ha
  lift b to ℕ using hb
  lift c to ℕ using hc
  norm_cast
  rw [Nat.mod_mul]
  ring

theorem RowMajor.stride_pos {ndim : Nat} {shape stride : Nat → Int}
    (hrm : RowMajor ndim shape stride) (hpos : PosShape ndim shape) :
    ∀ k d, d + k + 1 = ndim → 0 < stride d := by
  intro k
  induction k with
  | zero =>
    intro d hd
    rw [(hrm d (by omega)).1 (by omega)]
    exact Int.one_pos
  | succ k ih =>
    intro d hd
    rw [(hrm d (by omega)).2 (by omega)]
    exact Int.mul_pos (ih (d + 1) (by omega)) (hpos (d + 1) (by omega))

theorem RowMajor.stride_pos_of_lt {ndim : Nat} {shape stride : Nat → Int}
    (hrm : RowMajor ndim shape stride) (hpos : PosShape ndim shape) {d : Nat} (hd : d < ndim) :
    0 < stride d :=
  hrm.stride_pos hpos (ndim - 1 - d) d (by omega)

theorem RowMajor.stride_mul_shape {ndim : Nat} {shape stride : Nat → Int}
    (hrm : RowMajor ndim shape stride) :
    ∀ k d, d + k + 1 = ndim → stride d * shape d = ∏ j in Finset.Ico d ndim, shape j := by
  intro k
  induction k with
  | zero =>
    intro d hd
    have h1 : ndim = d + 1 := by omega
    rw [(hrm d (by omega)).1 (by omega), h1]
    simp
  | succ k ih =>
    intro d hd
    rw [Finset.prod_eq_prod_Ico_succ_bot (by omega : d < ndim), ← ih (d + 1) (by omega),
      (hrm d (by omega)).2 (by omega)]
    ring

theorem RowMajor.numel_eq {ndim : Nat} {shape stride : Nat → Int}
    (hrm : RowMajor ndim shape stride) (h : 0 < ndim) :
    numel ndim shape = stride 0 * shape 0 := by
  rw [hrm.stride_mul_shape (ndim - 1) 0 (by omega), numel, Finset.range_eq_Ico]

/-- The coordinate that the kernels extract for dimension `d`, in C arithmetic. -/
theorem coord_eq {ndim : Nat} {shape stride : Nat → Int}
    (hrm : RowMajor ndim shape stride) (hpos : PosShape ndim shape) {idx : Int} (hidx : 0 ≤ idx)
    {d : Nat} (hd : d < ndim) :
    (idx.tdiv (stride d)).tmod (shape d) = idx / stride d % shape d := by
  have hst := hrm.stride_pos_of_lt hpos hd
  rw [Int.tdiv_eq_ediv hidx hst.le,
    Int.tmod_eq_emod (Int.ediv_nonneg hidx hst.le) (hpos d hd).le]

theorem coord_nonneg {ndim : Nat} {shape stride : Nat → Int}
    (hrm : RowMajor ndim shape stride) (hpos : PosShape ndim shape) {idx : Int} (hidx : 0 ≤ idx)
    {d : Nat} (hd : d < ndim) :
    0 ≤ (idx.tdiv (stride d)).tmod (shape d) := by
  rw [coord_eq hrm hpos hidx hd]
  exact Int.emod_nonneg _ (hpos d hd).ne'

theorem coord_lt {ndim : Nat} {shape stride : Nat → Int}
    (hrm : RowMajor ndim shape stride) (hpos : PosShape ndim shape) {idx : Int} (hidx : 0 ≤ idx)
    {d : Nat} (hd : d < ndim) :
    (idx.tdiv (stride d)).tmod (shape d) < shape d := by
  rw [coord_eq hrm hpos hidx hd]
  exact Int.emod_lt_of_pos _ (hpos d hd)

/-- Mixed-radix expansion: the coordinates of dimensions `d..ndim-1`, weighted by
their strides, add up to `idx` modulo the extent spanned by those dimensions. -/
theorem mixed_radix_sum {ndim : Nat} {shape stride : Nat → Int}
    (hrm : RowMajor ndim shape stride) (hpos : PosShape ndim shape) {idx : Int} (hidx : 0 ≤ idx) :
    ∀ k d, d + k + 1 = ndim →
      ∑ j in Finset.Ico d ndim, (idx.tdiv (stride j)).tmod (shape j) * stride j
        = idx % (stride d * shape d) := by
  intro k
  induction k with
  | zero =>
    intro d hd
    have h1 : ndim = d + 1 := by omega
    have h2 : stride d = 1 := (hrm d (by omega)).1 (by omega)
    have h3 := coord_eq hrm hpos hidx (by omega : d < ndim)
    rw [h2] at h3
    subst h1
    simp [h2] at h3 ⊢
    exact h3
  | succ k ih =>
    intro d hd
    have hdl : d < ndim := by omega
    rw [Finset.sum_eq_sum_Ico_succ_bot hdl, ih (d + 1) (by omega),
      ← (hrm d hdl).2 (by omega), coord_eq hrm hpos hidx hdl]
    exact mixed_radix_step idx (stride d) (shape d) hidx
      (hrm.stride_pos_of_lt hpos hdl).le (hpos d hdl).le

theorem mixed_radix_total {ndim : Nat} {shape stride : Nat → Int}
    (hrm : RowMajor ndim shape stride) (hpos : PosShape ndim shape) {idx : Int}
    (hidx : 0 ≤ idx) (hlt : idx < numel ndim shape) :
    ∑ j in Finset.Ico 0 ndim, (idx.tdiv (stride j)).tmod (shape j) * stride j = idx := by
  rcases Nat.eq_zero_or_pos ndim with h0 | h0
  · subst h0
    simp [numel] at hlt ⊢
    omega
  · rw [mixed_radix_sum hrm hpos hidx (ndim - 1) 0 (by omega), ← hrm.numel_eq h0]
    exact Int.emod_eq_of_lt hidx hlt

/-! ### `Unravel` and `Ravel` -/

theorem Unravel_apply (idx : Int) (shape stride : Nat → Int) (n lo : Nat) (out : Nat → Int)
    (d : Nat) :
    forLoop (fun d out => Function.update out d ((idx.tdiv (stride d)).tmod (shape d))) n lo out d
      = if lo ≤ d ∧ d < lo + n then (idx.tdiv (stride d)).tmod (shape d) else out d := by
  induction n generalizing out with
  | zero =>
    have : ¬ (lo ≤ d ∧ d < lo + 0) := by omega
    rw [if_neg this]
    rfl
  | succ n ih =>
    rw [forLoop_succ_last]
    by_cases hd : d = lo + n
    · subst hd
      simp
    · rw [Function.update_noteq hd, ih]
      have : (lo ≤ d ∧ d < lo + (n + 1)) ↔ (lo ≤ d ∧ d < lo + n) := by omega
      simp only [this]

theorem Ravel_Unravel_eq_sum (idx : Int) (ndim : Nat) (shape stride x_shape x_stride out) :
    cpu.Ravel (cpu.Unravel idx ndim shape stride out) ndim x_shape x_stride
      = ∑ j in Finset.Ico 0 ndim,
          min ((idx.tdiv (stride j)).tmod (shape j)) (x_shape j - 1) * x_stride j := by
  unfold cpu.Ravel cpu.Unravel
  rw [forLoop_congr _ (fun d acc => acc +
      min ((idx.tdiv (stride d)).tmod (shape d)) (x_shape d - 1) * x_stride d),
    forLoop_add_sum]
  · simp
  · intro i s h1 h2
    simp only [Unravel_apply]
    rw [if_pos ⟨h1, h2⟩]

/-- C2. `Ravel(Unravel(idx, ndim, shape, stride), ndim, shape, stride) = idx` for every
shape with positive entries, its row-major strides and every `idx` in `[0, prod(shape))`. -/
theorem Ravel_Unravel_roundtrip (idx : Int) (ndim : Nat) (shape stride : Nat → Int)
    (out : Nat → Int) (hpos : PosShape ndim shape) (hrm : RowMajor ndim shape stride)
    (h0 : 0 ≤ idx) (hlt : idx < numel ndim shape) :
    cpu.Ravel (cpu.Unravel idx ndim shape stride out) ndim shape stride = idx := by
  rw [Ravel_Unravel_eq_sum]
  conv_rhs => rw [← mixed_radix_total hrm hpos h0 hlt]
  refine Finset.sum_congr rfl (fun j hj => ?_)
  have hj' : j < ndim := (Finset.mem_Ico.mp hj).2
  have := coord_lt hrm hpos h0 hj'
  rw [min_eq_left (by omega)]

theorem Ravel_Unravel_roundtrip_witness :
    PosShape 2 (ofList [2, 3]) ∧ RowMajor 2 (ofList [2, 3]) (ofList [3, 1]) ∧
      cpu.Ravel (cpu.Unravel 4 2 (ofList [2, 3]) (ofList [3, 1]) (fun _ => 0)) 2
        (ofList [2, 3]) (ofList [3, 1]) = 4 :=
  ⟨by decide, by decide,
    Ravel_Unravel_roundtrip 4 2 (ofList [2, 3]) (ofList [3, 1]) (fun _ => 0) (by decide)
      (by decide) (by decide) (by simp [numel, Finset.prod_range_succ, ofList])⟩

/-! ### `UnravelRavel` -/

/-- On an operand whose extent in dimension `d` is the output extent or 1, the guarded
update of `UnravelRavel` adds the clamped coordinate times the stride. -/
theorem UnravelRavel_step_eq {ndim : Nat} {out_shape out_stride : Nat → Int}
    (hrm : RowMajor ndim out_shape out_stride) (hpos : PosShape ndim out_shape)
    {idx : Int} (hidx : 0 ≤ idx) (x_shape x_stride : Nat → Int) {d : Nat} (hd : d < ndim)
    (hx : x_shape d = out_shape d ∨ x_shape d = 1) (acc : Int) :
    cpu.UnravelRavel.step idx out_shape out_stride x_shape x_stride d acc
      = acc + min ((idx.tdiv (out_stride d)).tmod (out_shape d)) (x_shape d - 1) * x_stride d := by
  have h1 := coord_nonneg hrm hpos hidx hd
  have h2 := coord_lt hrm hpos hidx hd
  simp only [cpu.UnravelRavel.step]
  rcases hx with hx | hx
  · rw [hx, if_pos h2, min_eq_left (by omega)]
  · rw [hx]
    by_cases hi : (idx.tdiv (out_stride d)).tmod (out_shape d) = 0
    · rw [hi]; simp
    · rw [if_neg (by omega), min_eq_right (by omega)]; simp

/-- The per-dimension loop of `UnravelRavel`, started at 0, computes
`Ravel(Unravel(idx, out_shape, out_stride), x_shape, x_stride)`. -/
theorem UnravelRavel_loop_eq_Ravel {ndim : Nat} {out_shape out_stride : Nat → Int}
    (hrm : RowMajor ndim out_shape out_stride) (hpos : PosShape ndim out_shape)
    {idx : Int} (hidx : 0 ≤ idx) (x_shape x_stride : Nat → Int)
    (hx : ∀ d < ndim, x_shape d = out_shape d ∨ x_shape d = 1) (out : Nat → Int) :
    forLoop (cpu.UnravelRavel.step idx out_shape out_stride x_shape x_stride) ndim 0 0
      = cpu.Ravel (cpu.Unravel idx ndim out_shape out_stride out) ndim x_shape x_stride := by
  rw [Ravel_Unravel_eq_sum, forLoop_congr _ (fun d acc => acc +
      min ((idx.tdiv (out_stride d)).tmod (out_shape d)) (x_shape d - 1) * x_stride d),
    forLoop_add_sum]
  · simp
  · intro i s _ h2
    exact UnravelRavel_step_eq hrm hpos hidx x_shape x_stride (by omega) (hx i (by omega)) s

/-- C1 (failing input). For `out_shape = [2,3]`, `lhs_shape = [1,3]`, `rhs_shape = [2,3]` with
row-major strides, a broadcast-compatible configuration, the leading strides of the output
and of the left operand coincide, `UnravelRavel` takes its first branch and returns
`lhs_out = idx = 3`, whereas per-dimension accumulation
`Ravel(Unravel(3, out_shape, out_stride), lhs_shape, lhs_stride)` gives `0`; the returned
offset is not even below `prod(lhs_shape) = 3`. -/
theorem UnravelRavel_fast_path_diverges :
    BcastCompatible 2 (ofList [2, 3]) (ofList [1, 3]) (ofList [2, 3]) ∧
      RowMajor 2 (ofList [2, 3]) (ofList [3, 1]) ∧
      RowMajor 2 (ofList [1, 3]) (ofList [3, 1]) ∧
      (cpu.UnravelRavel 3 2 (ofList [2, 3]) (ofList [3, 1]) (ofList [1, 3]) (ofList [3, 1])
        (ofList [2, 3]) (ofList [3, 1]) 0 0) = (3, 3) ∧
      cpu.Ravel (cpu.Unravel 3 2 (ofList [2, 3]) (ofList [3, 1]) (fun _ => 0)) 2
        (ofList [1, 3]) (ofList [3, 1]) = 0 ∧
      numel 2 (ofList [1, 3]) = 3 := by
  refine ⟨by decide, by decide, by decide, by decide, by decide, ?_⟩
  simp [numel, Finset.prod_range_succ, ofList]

/-- C3. When the left operand has the output's shape and strides and every extent of the
right operand is 1, `UnravelRavel` with zeroed accumulators maps every output flat index
`idx` in `[0, prod(out_shape))` to left offset `idx` and right offset `0`. -/
theorem UnravelRavel_rhs_fully_broadcast (idx : Int) (ndim : Nat)
    (out_shape out_stride lhs_shape lhs_stride rhs_shape rhs_stride : Nat → Int)
    (hpos : PosShape ndim out_shape) (hrm : RowMajor ndim out_shape out_stride)
    (hl : ∀ d < ndim, lhs_shape d = out_shape d ∧ lhs_stride d = out_stride d)
    (hr : ∀ d < ndim, rhs_shape d = 1)
    (h0 : 0 ≤ idx) (hlt : idx < numel ndim out_shape) :
    cpu.UnravelRavel idx ndim out_shape out_stride lhs_shape lhs_stride rhs_shape rhs_stride 0 0
      = (idx, 0) := by
  unfold cpu.UnravelRavel
  split
  · rw [UnravelRavel_loop_eq_Ravel hrm hpos h0 rhs_shape rhs_stride
      (fun d hd => Or.inr (hr d hd)) (fun _ => 0), Ravel_Unravel_eq_sum]
    refine Prod.ext rfl ?_
    show ∑ j in Finset.Ico 0 ndim,
      min ((idx.tdiv (out_stride j)).tmod (out_shape j)) (rhs_shape j - 1) * rhs_stride j = 0
    apply Finset.sum_eq_zero
    intro j hj
    have hj' : j < ndim := (Finset.mem_Ico.mp hj).2
    have := coord_nonneg hrm hpos h0 hj'
    rw [hr j hj', min_eq_right (by omega)]
    simp
  · rename_i hne
    have hn : ndim = 0 := by
      by_contra hn
      exact hne (hl 0 (by omega)).2.symm
    subst hn
    simp [numel] at hlt
    have : idx = 0 := by omega
    subst this
    rfl

theorem UnravelRavel_rhs_fully_broadcast_witness :
    cpu.UnravelRavel 0 2 (ofList [3, 1]) (ofList [1, 1]) (ofList [3, 1]) (ofList [1, 1])
        (ofList [1, 1]) (ofList [1, 1]) 0 0 = (0, 0) ∧
      cpu.UnravelRavel 1 2 (ofList [3, 1]) (ofList [1, 1]) (ofList [3, 1]) (ofList [1, 1])
        (ofList [1, 1]) (ofList [1, 1]) 0 0 = (1, 0) ∧
      cpu.UnravelRavel 2 2 (ofList [3, 1]) (ofList [1, 1]) (ofList [3, 1]) (ofList [1, 1])
        (ofList [1, 1]) (ofList [1, 1]) 0 0 = (2, 0) :=
  ⟨UnravelRavel_rhs_fully_broadcast 0 2 (ofList [3, 1]) (ofList [1, 1]) (ofList [3, 1])
      (ofList [1, 1]) (ofList [1, 1]) (ofList [1, 1]) (by decide) (by decide) (by decide)
      (by decide) (by decide) (by simp [numel, Finset.prod_range_succ, ofList]),
    UnravelRavel_rhs_fully_broadcast 1 2 (ofList [3, 1]) (ofList [1, 1]) (ofList [3, 1])
      (ofList [1, 1]) (ofList [1, 1]) (ofList [1, 1]) (by decide) (by decide) (by decide)
      (by decide) (by decide) (by simp [numel, Finset.prod_range_succ, ofList]),
    UnravelRavel_rhs_fully_broadcast 2 2 (ofList [3, 1]) (ofList [1, 1]) (ofList [3, 1])
      (ofList [1, 1]) (ofList [1, 1]) (ofList [1, 1]) (by decide) (by decide) (by decide)
      (by decide) (by decide) (by simp [numel, Finset.prod_range_succ, ofList])⟩

/-! ### `BinaryReduce::ApplyEdge` -/

/-- A loop of `Write`s to consecutive slots applies the reducer once to each slot of the
range and leaves every other slot alone. -/
theorem forLoop_Write {α : Type} (F : cpu.FunctorsTempl α) (off : Int) (v : Int → α)
    (n lo : Nat) (mem : Int → α) (p : Int) :
    forLoop (fun tx mem => F.Write mem (off + (tx : Int)) (v tx)) n lo mem p
      = if off + lo ≤ p ∧ p < off + lo + n then F.Reducer (mem p) (v (p - off)) else mem p := by
  induction n with
  | zero =>
    have : ¬ (off + lo ≤ p ∧ p < off + lo + (0 : Nat)) := by omega
    rw [if_neg this]
    rfl
  | succ n ih =>
    rw [forLoop_succ_last]
    simp only [cpu.FunctorsTempl.Write] at ih ⊢
    by_cases hp : p = off + ((lo + n : Nat) : Int)
    · subst hp
      rw [Function.update_same, ih, if_neg (by push_cast; omega), if_pos (by push_cast; omega)]
      congr 2
      omega
    · rw [Function.update_noteq hp, ih]
      have : (off + lo ≤ p ∧ p < off + lo + ((n + 1 : Nat) : Int)) ↔
          (off + lo ≤ p ∧ p < off + lo + (n : Int)) := by
        push_cast at hp ⊢
        omega
      simp only [this]

/-- Pointwise form of `ApplyEdge`: the slots `outRow * D + tx`, `0 ≤ tx < D`, receive one
`Write` of the edge's value for column `tx`; all other slots keep their content. -/
theorem ApplyEdge_out_data {α : Type} (F : cpu.FunctorsTempl α) (e : Edge) (g : GData α)
    (p : Int) :
    (cpu.BinaryReduce.ApplyEdge F e.src e.dst e.eid g).out_data p
      = if 0 ≤ p - outRow F g e * g.x_length ∧ p - outRow F g e * g.x_length < g.x_length
        then F.Reducer (g.out_data p) (edgeValue F g e (p - outRow F g e * g.x_length))
        else g.out_data p := by
  have h := forLoop_Write F (outRow F g e * g.x_length) (fun tx => edgeValue F g e tx)
    g.x_length.toNat 0 g.out_data p
  have h2 : (cpu.BinaryReduce.ApplyEdge F e.src e.dst e.eid g).out_data
      = forLoop (fun tx mem => F.Write mem (outRow F g e * g.x_length + (tx : Int))
          (edgeValue F g e tx)) g.x_length.toNat 0 g.out_data := by
    cases hl : g.lhs_mapping <;> cases hr : g.rhs_mapping <;> cases ho : g.out_mapping <;>
      simp [cpu.BinaryReduce.ApplyEdge, outRow, edgeValue, translate, hl, hr, ho,
        cpu.FunctorsTempl.GetId]
  rw [h2, h]
  have : (outRow F g e * g.x_length + ((0 : Nat) : Int) ≤ p ∧
      p < outRow F g e * g.x_length + ((0 : Nat) : Int) + (g.x_length.toNat : Int)) ↔
      (0 ≤ p - outRow F g e * g.x_length ∧ p - outRow F g e * g.x_length < g.x_length) := by
    generalize outRow F g e * g.x_length = off
    omega
  simp only [this]

/-- C4. `BinaryReduce.ApplyEdge`, with `lid`, `rid`, `oid` the selector results translated
through the mappings that are present, applies the reducer once to `out_data[oid*D + tx]`
with the value `Op(lhs_data + lid*D*len + tx*len, rhs_data + rid*D*len + tx*len, len)` for
every column `tx` in `[0, D)`, and leaves every other slot of `out_data` as it was. -/
theorem BinaryReduce_ApplyEdge_writes {α : Type} (F : cpu.FunctorsTempl α) (src dst eid : Int)
    (gdata : GData α) :
    let D := gdata.x_length
    let len := gdata.data_len
    let lid := translate gdata.lhs_mapping (F.LeftSelector.Call src eid dst)
    let rid := translate gdata.rhs_mapping (F.RightSelector.Call src eid dst)
    let oid := translate gdata.out_mapping (F.OutSelector.Call src eid dst)
    (∀ tx : Int, 0 ≤ tx → tx < D →
      (cpu.BinaryReduce.ApplyEdge F src dst eid gdata).out_data (oid * D + tx)
        = F.Reducer (gdata.out_data (oid * D + tx))
            (F.BinaryOp (fun k => gdata.lhs_data (lid * D * len + tx * len + k))
              (fun k => gdata.rhs_data (rid * D * len + tx * len + k)) len)) ∧
    (∀ p : Int, (∀ tx : Int, 0 ≤ tx → tx < D → p ≠ oid * D + tx) →
      (cpu.BinaryReduce.ApplyEdge F src dst eid gdata).out_data p = gdata.out_data p) := by
  intro D len lid rid oid
  have key := ApplyEdge_out_data F ⟨src, dst, eid⟩ gdata
  have hrow : outRow F gdata ⟨src, dst, eid⟩ = oid := rfl
  simp only [hrow] at key
  constructor
  · intro tx h0 h1
    have h1' : tx < gdata.x_length := h1
    have : oid * gdata.x_length + tx - oid * gdata.x_length = tx := by ring
    rw [key, this, if_pos ⟨h0, h1'⟩]
    rfl
  · intro p hp
    rw [key, if_neg]
    rintro ⟨h0, h1⟩
    exact hp (p - oid * gdata.x_length) h0 h1 (by ring)

/-! ### Running the kernel over an edge list -/

theorem applyEdges_cons {α : Type} (F : cpu.FunctorsTempl α) (e : Edge) (es : List Edge)
    (g : GData α) :
    applyEdges F (e :: es) g = applyEdges F es (cpu.BinaryReduce.ApplyEdge F e.src e.dst e.eid g) :=
  rfl

/-- Only `out_data` changes when the kernel runs over an edge list. -/
theorem applyEdges_frame {α : Type} (F : cpu.FunctorsTempl α) (es : List Edge) (g : GData α) :
    applyEdges F es g = { g with out_data := (applyEdges F es g).out_data } := by
  induction es generalizing g with
  | nil => rfl
  | cons e es ih =>
    rw [applyEdges_cons, ih]
    rfl

/-- Each slot of `out_data` evolves on its own: its final content is the fold of
`slotStep` over the edge list, from its initial content. -/
theorem applyEdges_out_data {α : Type} (F : cpu.FunctorsTempl α) (es : List Edge)
    (g : GData α) (p : Int) :
    (applyEdges F es g).out_data p = es.foldl (slotStep F g p) (g.out_data p) := by
  induction es generalizing g with
  | nil => rfl
  | cons e es ih =>
    rw [applyEdges_cons, ih, ApplyEdge_out_data]
    rfl

theorem foldl_cond_add {α β : Type} [AddCommMonoid α] (c : β → Bool) (f : β → α)
    (es : List β) (a : α) :
    es.foldl (fun acc e => if c e then acc + f e else acc) a
      = a + ((es.filter c).map f).sum := by
  induction es generalizing a with
  | nil => simp
  | cons e es ih =>
    rw [List.foldl_cons, ih, List.filter_cons]
    by_cases hc : c e = true
    · simp [hc, add_assoc]
    · simp [hc]

/-- C5. With `x_length = 1`, `data_len = 1`, null mappings, left operand on the source,
right operand on the destination, operator add, output on the destination and the sum
reducer, one `ApplyEdge` per edge leaves `out_data[v] = initial[v] + Σ (lhs_data[u] +
rhs_data[v])` over the edges `u → v`, for every node `v`; a node that is no edge's
destination keeps its initial value. -/
theorem applyEdges_add_sum {α : Type} [AddCommMonoid α] (edges : List Edge) (g : GData α)
    (hD : g.x_length = 1) (hlen : g.data_len = 1) (hl : g.lhs_mapping = none)
    (hr : g.rhs_mapping = none) (ho : g.out_mapping = none) (v : Int) :
    (applyEdges ⟨.kSrc, .kDst, .kDst, BinaryAdd, ReduceSum⟩ edges g).out_data v
        = g.out_data v + ((edges.filter (fun e => decide (e.dst = v))).map
            (fun e => g.lhs_data e.src + g.rhs_data v)).sum ∧
      ((∀ e ∈ edges, e.dst ≠ v) →
        (applyEdges ⟨.kSrc, .kDst, .kDst, BinaryAdd, ReduceSum⟩ edges g).out_data v
          = g.out_data v) := by
  have hstep : ∀ (acc : α) (e : Edge),
      slotStep ⟨.kSrc, .kDst, .kDst, BinaryAdd, ReduceSum⟩ g v acc e
        = if decide (e.dst = v) then acc + (g.lhs_data e.src + g.rhs_data v) else acc := by
    intro acc e
    simp only [slotStep, outRow, edgeValue, translate, hD, hlen, hl, hr, ho,
      cpu.FunctorsTempl.SelectOut, cpu.FunctorsTempl.SelectLeft, cpu.FunctorsTempl.SelectRight,
      cpu.FunctorsTempl.Op, Target.Call, BinaryAdd, ReduceSum, cpu.ptr]
    by_cases hv : e.dst = v
    · subst hv
      simp
    · have : ¬ (0 ≤ v - e.dst * 1 ∧ v - e.dst * 1 < 1) := by omega
      rw [if_neg this]
      simp [hv]
  have hmain : (applyEdges ⟨.kSrc, .kDst, .kDst, BinaryAdd, ReduceSum⟩ edges g).out_data v
      = g.out_data v + ((edges.filter (fun e => decide (e.dst = v))).map
          (fun e => g.lhs_data e.src + g.rhs_data v)).sum := by
    rw [applyEdges_out_data, ← foldl_cond_add]
    exact List.foldl_ext _ _ _ (fun a b _ => hstep a b)
  refine ⟨hmain, fun hne => ?_⟩
  rw [hmain]
  have : edges.filter (fun e => decide (e.dst = v)) = [] := by
    rw [List.filter_eq_nil_iff]
    intro e he
    simpa using hne e he
  rw [this]
  simp

theorem applyEdges_add_sum_witness :
    (applyEdges ⟨.kSrc, .kDst, .kDst, BinaryAdd, ReduceSum⟩ pathGraph pathData).out_data 1
        = pathData.out_data 1 + (pathData.lhs_data 0 + pathData.rhs_data 1) ∧
      (applyEdges ⟨.kSrc, .kDst, .kDst, BinaryAdd, ReduceSum⟩ pathGraph pathData).out_data 2
        = pathData.out_data 2 + (pathData.lhs_data 1 + pathData.rhs_data 2) ∧
      (applyEdges ⟨.kSrc, .kDst, .kDst, BinaryAdd, ReduceSum⟩ pathGraph pathData).out_data 0
        = pathData.out_data 0 := by
  refine ⟨?_, ?_, ?_⟩
  · have h := (applyEdges_add_sum pathGraph pathData rfl rfl rfl rfl rfl 1).1
    simpa [pathGraph] using h
  · have h := (applyEdges_add_sum pathGraph pathData rfl rfl rfl rfl rfl 2).1
    simpa [pathGraph] using h
  · exact (applyEdges_add_sum pathGraph pathData rfl rfl rfl rfl rfl 0).2 (by decide)

/-! ### Output mapping -/

/-- Slots of distinct rows of width `D` are distinct: the slot `a * D + t` with
`0 ≤ t < D` lies in row `b` exactly when `a = b`. -/
theorem row_slot_iff (a b D t : Int) (h0 : 0 ≤ t) (h1 : t < D) :
    (0 ≤ a * D + t - b * D ∧ a * D + t - b * D < D) ↔ a = b := by
  constructor
  · rintro ⟨h2, h3⟩
    by_contra hne
    rcases lt_or_gt_of_ne hne with h | h
    · have : 0 ≤ (b - a - 1) * D := mul_nonneg (by omega) (by omega)
      nlinarith
    · have : 0 ≤ (a - b - 1) * D := mul_nonneg (by omega) (by omega)
      nlinarith
  · rintro rfl
    constructor <;> omega

theorem foldl_cond_reduce {α β : Type} (red : α → α → α) (c : β → Bool) (f : β → α)
    (es : List β) (a : α) :
    es.foldl (fun acc e => if c e then red acc (f e) else acc) a
      = ((es.filter c).map f).foldl red a := by
  induction es generalizing a with
  | nil => rfl
  | cons e es ih =>
    rw [List.foldl_cons, ih, List.filter_cons]
    by_cases hc : c e = true
    · simp [hc]
    · simp [hc]

/-- The final content of a slot of logical row `v`, when the translation of output ids is
injective on a set `S` holding `v` and the output id of every edge: the reducer folded over
the values of the edges whose output id is `v`, from the slot's initial content. -/
theorem applyEdges_row_slot {α : Type} (F : cpu.FunctorsTempl α) (edges : List Edge)
    (g : GData α) (S : Finset Int)
    (hS : ∀ e ∈ edges, F.SelectOut e.src e.eid e.dst ∈ S)
    (hinj : ∀ a ∈ S, ∀ b ∈ S, translate g.out_mapping a = translate g.out_mapping b → a = b)
    (v : Int) (hv : v ∈ S) (tx : Int) (h0 : 0 ≤ tx) (h1 : tx < g.x_length) :
    (applyEdges F edges g).out_data (translate g.out_mapping v * g.x_length + tx)
      = ((edges.filter (fun e => decide (F.SelectOut e.src e.eid e.dst = v))).map
          (fun e => edgeValue F g e tx)).foldl F.Reducer
          (g.out_data (translate g.out_mapping v * g.x_length + tx)) := by
  rw [applyEdges_out_data, ← foldl_cond_reduce]
  refine List.foldl_ext _ _ _ (fun acc e he => ?_)
  have hrow : outRow F g e = translate g.out_mapping (F.SelectOut e.src e.eid e.dst) := rfl
  simp only [slotStep, hrow]
  by_cases hve : F.SelectOut e.src e.eid e.dst = v
  · rw [hve, if_pos ((row_slot_iff _ _ _ _ h0 h1).2 rfl)]
    have e1 : translate g.out_mapping v * g.x_length + tx
        - translate g.out_mapping v * g.x_length = tx := by ring
    rw [e1]
    simp
  · rw [if_neg]
    · simp [hve]
    · rw [row_slot_iff _ _ _ _ h0 h1]
      exact fun h => hve (hinj v hv _ (hS e he) h).symm

/-- A slot that lies in the output row of no edge keeps its content. -/
theorem applyEdges_untouched {α : Type} (F : cpu.FunctorsTempl α) (edges : List Edge)
    (g : GData α) (p : Int)
    (hp : ∀ e ∈ edges, ¬ (0 ≤ p - outRow F g e * g.x_length ∧
      p - outRow F g e * g.x_length < g.x_length)) :
    (applyEdges F edges g).out_data p = g.out_data p := by
  rw [applyEdges_out_data]
  generalize g.out_data p = a
  induction edges with
  | nil => rfl
  | cons e es ih =>
    rw [List.foldl_cons]
    have : slotStep F g p a e = a := by
      simp only [slotStep]
      rw [if_neg (hp e (List.mem_cons_self _ _))]
    rw [this]
    exact ih (fun e he => hp e (List.mem_cons_of_mem _ he))

/-- C6. Let `m` be injective on a set `S` of logical output ids that contains the output id
of every edge, and run `ApplyEdge` over the edges once with `out_mapping = m` (from the
output buffer `out0`) and once with a null `out_mapping`.  For every `v` in `S` the mapped
run places at row `m[v]` exactly the values that the unmapped run places at row `v`: both
rows are the reducer folded over the same list of edge values, each from its own initial
content, so the rows are equal whenever they start equal; and the mapped run leaves every
slot outside the rows `m[a]`, `a ∈ S`, at its initial value. -/
theorem applyEdges_out_mapping {α : Type} (F : cpu.FunctorsTempl α) (edges : List Edge)
    (g : GData α) (m : Int → Int) (out0 : Int → α) (S : Finset Int)
    (hnone : g.out_mapping = none)
    (hS : ∀ e ∈ edges, F.SelectOut e.src e.eid e.dst ∈ S)
    (hinj : ∀ a ∈ S, ∀ b ∈ S, m a = m b → a = b) :
    (∀ v ∈ S, ∀ tx : Int, 0 ≤ tx → tx < g.x_length →
      (applyEdges F edges { g with out_mapping := some m, out_data := out0 }).out_data
          (m v * g.x_length + tx)
        = ((edges.filter (fun e => decide (F.SelectOut e.src e.eid e.dst = v))).map
            (fun e => edgeValue F g e tx)).foldl F.Reducer (out0 (m v * g.x_length + tx)) ∧
      (applyEdges F edges g).out_data (v * g.x_length + tx)
        = ((edges.filter (fun e => decide (F.SelectOut e.src e.eid e.dst = v))).map
            (fun e => edgeValue F g e tx)).foldl F.Reducer (g.out_data (v * g.x_length + tx)) ∧
      (out0 (m v * g.x_length + tx) = g.out_data (v * g.x_length + tx) →
        (applyEdges F edges { g with out_mapping := some m, out_data := out0 }).out_data
            (m v * g.x_length + tx)
          = (applyEdges F edges g).out_data (v * g.x_length + tx))) ∧
    (∀ p : Int, (∀ a ∈ S, ∀ tx : Int, 0 ≤ tx → tx < g.x_length → p ≠ m a * g.x_length + tx) →
      (applyEdges F edges { g with out_mapping := some m, out_data := out0 }).out_data p
        = out0 p) := by
  have hmapped : ∀ v ∈ S, ∀ tx : Int, 0 ≤ tx → tx < g.x_length →
      (applyEdges F edges { g with out_mapping := some m, out_data := out0 }).out_data
          (m v * g.x_length + tx)
        = ((edges.filter (fun e => decide (F.SelectOut e.src e.eid e.dst = v))).map
            (fun e => edgeValue F g e tx)).foldl F.Reducer (out0 (m v * g.x_length + tx)) :=
    fun v hv tx h0 h1 =>
      applyEdges_row_slot F edges { g with out_mapping := some m, out_data := out0 } S hS
        hinj v hv tx h0 h1
  have hplain : ∀ v ∈ S, ∀ tx : Int, 0 ≤ tx → tx < g.x_length →
      (applyEdges F edges g).out_data (v * g.x_length + tx)
        = ((edges.filter (fun e => decide (F.SelectOut e.src e.eid e.dst = v))).map
            (fun e => edgeValue F g e tx)).foldl F.Reducer (g.out_data (v * g.x_length + tx)) := by
    intro v hv tx h0 h1
    have h := applyEdges_row_slot F edges g S hS
      (by rw [hnone]; exact fun a _ b _ h => h) v hv tx h0 h1
    rw [hnone] at h
    exact h
  refine ⟨fun v hv tx h0 h1 => ⟨hmapped v hv tx h0 h1, hplain v hv tx h0 h1, fun h => ?_⟩,
    fun p hp => ?_⟩
  · rw [hmapped v hv tx h0 h1, hplain v hv tx h0 h1, h]
  · refine applyEdges_untouched F edges _ p (fun e he => ?_)
    rintro ⟨h2, h3⟩
    have h2' : 0 ≤ p - m (F.SelectOut e.src e.eid e.dst) * g.x_length := h2
    have h3' : p - m (F.SelectOut e.src e.eid e.dst) * g.x_length < g.x_length := h3
    exact hp _ (hS e he) _ h2' h3' (by ring)

theorem applyEdges_out_mapping_witness :
    (applyEdges ⟨.kSrc, .kDst, .kDst, BinaryAdd, ReduceSum⟩ pathGraph
        { pathData with out_mapping := some map567,
                        out_data := fun p => pathData.out_data (p - 5) }).out_data 6
      = (applyEdges ⟨.kSrc, .kDst, .kDst, BinaryAdd, ReduceSum⟩ pathGraph pathData).out_data 1 ∧
    (applyEdges ⟨.kSrc, .kDst, .kDst, BinaryAdd, ReduceSum⟩ pathGraph
        { pathData with out_mapping := some map567,
                        out_data := fun p => pathData.out_data (p - 5) }).out_data 7
      = (applyEdges ⟨.kSrc, .kDst, .kDst, BinaryAdd, ReduceSum⟩ pathGraph pathData).out_data 2 ∧
    (applyEdges ⟨.kSrc, .kDst, .kDst, BinaryAdd, ReduceSum⟩ pathGraph
        { pathData with out_mapping := some map567,
                        out_data := fun p => pathData.out_data (p - 5) }).out_data 1
      = pathData.out_data (1 - 5) := by
  have h := applyEdges_out_mapping ⟨.kSrc, .kDst, .kDst, BinaryAdd, ReduceSum⟩ pathGraph
    pathData map567 (fun p => pathData.out_data (p - 5)) {0, 1, 2} rfl (by decide) (by decide)
  refine ⟨(h.1 1 (by decide) 0 (by decide) (by decide)).2.2 rfl,
    (h.1 2 (by decide) 0 (by decide) (by decide)).2.2 rfl, h.2 1 ?_⟩
  intro a ha tx h0 h1
  have h1' : tx < 1 := h1
  simp only [Finset.mem_insert, Finset.mem_singleton] at ha
  rcases ha with rfl | rfl | rfl <;> simp [map567, pathData] <;> omega

/-! ### Order of the edges -/

theorem slotStep_rightComm {α : Type} (F : cpu.FunctorsTempl α) (g : GData α) (p : Int)
    (hR : ∀ a x y, F.Reducer (F.Reducer a x) y = F.Reducer (F.Reducer a y) x) :
    RightCommutative (slotStep F g p) := by
  constructor
  intro acc e₁ e₂
  simp only [slotStep]
  split_ifs <;> first | rfl | exact hR _ _ _

/-- With a reducer for which the order of two accumulations does not matter, the final
`out_data` is the same for every permutation of the edge list. -/
theorem applyEdges_perm_of_rightComm {α : Type} (F : cpu.FunctorsTempl α)
    (hR : ∀ a x y, F.Reducer (F.Reducer a x) y = F.Reducer (F.Reducer a y) x)
    {edges edges₂ : List Edge} (hperm : edges.Perm edges₂) (g : GData α) :
    applyEdges F edges g = applyEdges F edges₂ g := by
  rw [applyEdges_frame F edges g, applyEdges_frame F edges₂ g]
  congr 1
  funext p
  rw [applyEdges_out_data, applyEdges_out_data]
  haveI := slotStep_rightComm F g p hR
  exact hperm.foldl_eq _

/-- C7. For a destination-target output over exact arithmetic, with the sum reducer and
likewise with the max reducer, the `out_data` produced by one `ApplyEdge` per edge is the
same for every permutation of the edge list; and for sum, when the output mapping (if any)
is injective on a set `S` holding the destinations, each slot of destination `v` equals
its initial value plus the sum of the values of all edges whose destination is `v`. -/
theorem applyEdges_order_independent {α : Type} [AddCommMonoid α] [LinearOrder α]
    (L R : Target) (op : (Int → α) → (Int → α) → Int → α) (edges edges₂ : List Edge)
    (hperm : edges.Perm edges₂) (g : GData α) (S : Finset Int)
    (hS : ∀ e ∈ edges, e.dst ∈ S)
    (hinj : ∀ a ∈ S, ∀ b ∈ S, translate g.out_mapping a = translate g.out_mapping b → a = b) :
    (applyEdges ⟨L, R, .kDst, op, ReduceSum⟩ edges g).out_data
        = (applyEdges ⟨L, R, .kDst, op, ReduceSum⟩ edges₂ g).out_data ∧
      (applyEdges ⟨L, R, .kDst, op, ReduceMax⟩ edges g).out_data
        = (applyEdges ⟨L, R, .kDst, op, ReduceMax⟩ edges₂ g).out_data ∧
      (∀ v ∈ S, ∀ tx : Int, 0 ≤ tx → tx < g.x_length →
        (applyEdges ⟨L, R, .kDst, op, ReduceSum⟩ edges g).out_data
            (translate g.out_mapping v * g.x_length + tx)
          = g.out_data (translate g.out_mapping v * g.x_length + tx)
            + ((edges.filter (fun e => decide (e.dst = v))).map
                (fun e => edgeValue ⟨L, R, .kDst, op, ReduceSum⟩ g e tx)).sum) := by
  refine ⟨?_, ?_, ?_⟩
  · rw [applyEdges_perm_of_rightComm _ (fun a x y => add_right_comm a x y) hperm]
  · rw [applyEdges_perm_of_rightComm _ (fun a x y => ?_) hperm]
    show max (max a x) y = max (max a y) x
    rw [max_assoc, max_comm x y, ← max_assoc]
  · intro v hv tx h0 h1
    rw [applyEdges_out_data, ← foldl_cond_add]
    refine List.foldl_ext _ _ _ (fun acc e he => ?_)
    have hrow : outRow ⟨L, R, .kDst, op, ReduceSum⟩ g e = translate g.out_mapping e.dst := rfl
    simp only [slotStep, hrow]
    show (if _ then acc + _ else acc) = _
    by_cases hve : e.dst = v
    · rw [hve, if_pos ((row_slot_iff _ _ _ _ h0 h1).2 rfl)]
      have e1 : translate g.out_mapping v * g.x_length + tx
          - translate g.out_mapping v * g.x_length = tx := by ring
      rw [e1]
      simp
    · rw [if_neg]
      · simp [hve]
      · rw [row_slot_iff _ _ _ _ h0 h1]
        exact fun h => hve (hinj v hv _ (hS e he) h).symm

theorem applyEdges_order_independent_witness :
    (applyEdges ⟨.kSrc, .kDst, .kDst, BinaryAdd, ReduceSum⟩ fanIn pathData).out_data
        = (applyEdges ⟨.kSrc, .kDst, .kDst, BinaryAdd, ReduceSum⟩ fanIn.reverse pathData).out_data ∧
      (applyEdges ⟨.kSrc, .kDst, .kDst, BinaryAdd, ReduceMax⟩ fanIn pathData).out_data
        = (applyEdges ⟨.kSrc, .kDst, .kDst, BinaryAdd, ReduceMax⟩ fanIn.reverse pathData).out_data ∧
      (applyEdges ⟨.kSrc, .kDst, .kDst, BinaryAdd, ReduceSum⟩ fanIn pathData).out_data 2
        = pathData.out_data 2 + ((pathData.lhs_data 0 + pathData.rhs_data 2)
            + ((pathData.lhs_data 1 + pathData.rhs_data 2) + 0)) := by
  have h := applyEdges_order_independent Target.kSrc Target.kDst BinaryAdd fanIn fanIn.reverse
    (List.reverse_perm fanIn).symm pathData {2} (by decide)
    (by intro a ha b hb _; simp only [Finset.mem_singleton] at ha hb; rw [ha, hb])
  exact ⟨h.1, h.2.1, h.2.2 2 (by decide) 0 (by decide) (by decide)⟩

/-! ### Overwrite reducer -/

theorem foldl_overwrite_idem {α β : Type} (c : β → Prop) [DecidablePred c] (val : β → α)
    (es : List β) (a : α) :
    es.foldl (fun acc e => if c e then val e else acc)
        (es.foldl (fun acc e => if c e then val e else acc) a)
      = es.foldl (fun acc e => if c e then val e else acc) a := by
  induction es using List.reverseRecOn with
  | nil => rfl
  | append_singleton l e ih =>
    simp only [List.foldl_append, List.foldl_cons, List.foldl_nil]
    by_cases hc : c e
    · simp [hc]
    · simp only [if_neg hc]
      exact ih

/-- C8. With the output on the edge and the overwrite reducer (output buffer apart from the
operand buffers), running `ApplyEdge` over all edges a second time on the result of the
first run gives back exactly the result of the first run, for every edge list, mappings
and initial output contents. -/
theorem applyEdges_overwrite_idempotent {α : Type} (L R : Target)
    (op : (Int → α) → (Int → α) → Int → α) (edges : List Edge) (g : GData α) :
    applyEdges ⟨L, R, .kEdge, op, ReduceNone⟩ edges
        (applyEdges ⟨L, R, .kEdge, op, ReduceNone⟩ edges g)
      = applyEdges ⟨L, R, .kEdge, op, ReduceNone⟩ edges g := by
  have h1 := applyEdges_frame ⟨L, R, .kEdge, op, ReduceNone⟩ edges
    (applyEdges ⟨L, R, .kEdge, op, ReduceNone⟩ edges g)
  have h2 : (applyEdges ⟨L, R, .kEdge, op, ReduceNone⟩ edges
      (applyEdges ⟨L, R, .kEdge, op, ReduceNone⟩ edges g)).out_data
      = (applyEdges ⟨L, R, .kEdge, op, ReduceNone⟩ edges g).out_data := by
    funext p
    rw [applyEdges_out_data]
    have hs : slotStep ⟨L, R, .kEdge, op, ReduceNone⟩
        (applyEdges ⟨L, R, .kEdge, op, ReduceNone⟩ edges g) p
        = slotStep ⟨L, R, .kEdge, op, ReduceNone⟩ g p := by
      rw [applyEdges_frame ⟨L, R, .kEdge, op, ReduceNone⟩ edges g]
      rfl
    rw [hs, applyEdges_out_data]
    exact foldl_overwrite_idem
      (fun e => 0 ≤ p - outRow ⟨L, R, .kEdge, op, ReduceNone⟩ g e * g.x_length ∧
        p - outRow ⟨L, R, .kEdge, op, ReduceNone⟩ g e * g.x_length < g.x_length)
      (fun e => edgeValue ⟨L, R, .kEdge, op, ReduceNone⟩ g e
        (p - outRow ⟨L, R, .kEdge, op, ReduceNone⟩ g e * g.x_length)) edges (g.out_data p)
  rw [h1, h2]

/-! ### Dispatch -/

/-- C9. `CallBinaryReduce` and `CallBinaryReduceBcast` fail with a configuration error
exactly when the output role is Source; then no topology is requested, the traversal is not
invoked and the bundle is unchanged; for output role Edge or Destination the call does not
fail and invokes the traversal exactly once. -/
theorem Call_fails_iff_output_kSrc {α Cfg : Type} (F : cpu.FunctorsTempl α)
    (Advance : Cfg → AdvanceConfig → SpMat → GData α → GData α)
    (AdvanceBcast : Cfg → AdvanceConfig → SpMat → BcastGData α → BcastGData α)
    (rtcfg : Cfg) (graph : SparseMatrixWrapper) (gdata : GData α) (bdata : BcastGData α) :
    (((CallBinaryReduce F Advance rtcfg graph gdata).error.isSome = true
          ↔ F.OutSelector = Target.kSrc) ∧
      ((CallBinaryReduceBcast F AdvanceBcast rtcfg graph bdata).error.isSome = true
          ↔ F.OutSelector = Target.kSrc)) ∧
    (F.OutSelector = Target.kSrc →
      (CallBinaryReduce F Advance rtcfg graph gdata).trace = [] ∧
      (CallBinaryReduce F Advance rtcfg graph gdata).gdata = gdata ∧
      (CallBinaryReduceBcast F AdvanceBcast rtcfg graph bdata).trace = [] ∧
      (CallBinaryReduceBcast F AdvanceBcast rtcfg graph bdata).gdata = bdata) ∧
    (F.OutSelector ≠ Target.kSrc →
      (CallBinaryReduce F Advance rtcfg graph gdata).error = none ∧
      ((CallBinaryReduce F Advance rtcfg graph gdata).trace.filter Event.isAdvance).length = 1 ∧
      (CallBinaryReduceBcast F AdvanceBcast rtcfg graph bdata).error = none ∧
      ((CallBinaryReduceBcast F AdvanceBcast rtcfg graph bdata).trace.filter
        Event.isAdvance).length = 1) := by
  obtain ⟨L, R, O, op, red⟩ := F
  cases O <;> simp [CallBinaryReduce, CallBinaryReduceBcast, Event.isAdvance]

/-- C10 (failing input). Output role Edge, left operand on the edges, and a caller's mapping
for both the left operand and the output.  `CallBinaryReduce` calls `MergeIDMapping` twice:
`lhs_mapping` is set into the first result and `out_mapping` into the second, both held
through the one handle `out_map`.  At the call of `Advance` the handle owns the second
result only, so the array behind the handed `lhs_mapping`, into which the composition
`native[lhs[i]]` was written, is no longer allocated.  (The pointers are listed in the
order `lhs_mapping`, `rhs_mapping`, `out_mapping`, then the merge result owned by `out_map`
and the number of merges.) -/
theorem CallBinaryReduce_first_merge_released :
    CallBinaryReduce.pointers ⟨.kEdge, .kSrc, .kEdge, BinaryAdd, ReduceNone⟩ twoMappingData
        = some ⟨some (MapPtr.merged 0), none, some (MapPtr.merged 1), some 1, 2⟩ ∧
      DispatchPtrs.live ⟨some (MapPtr.merged 0), none, some (MapPtr.merged 1), some 1, 2⟩
          (MapPtr.merged 0) = false ∧
      DispatchPtrs.live ⟨some (MapPtr.merged 0), none, some (MapPtr.merged 1), some 1, 2⟩
          (MapPtr.merged 1) = true ∧
      (advancedBundles (CallBinaryReduce ⟨.kEdge, .kSrc, .kEdge, BinaryAdd, ReduceNone⟩
          (fun (_ : Unit) _ _ g => g) () sampleGraph twoMappingData).trace).map
            (fun g => g.lhs_mapping)
        = [some (MergeIDMapping sampleGraph.GetCOOMatrix.data twoMappingData.lhs)] := by
  refine ⟨by decide, by decide, by decide, rfl⟩

/-! ### Single-column kernels -/

/-- C11 (failing input). On the path-graph bundle, edge `0 → 1`, column 0, with the left
operand on the source and the right operand on the destination, `BinaryReduce.ApplyEdgeReduce`
writes `Op` of the left row 0 and of the right row `rhd`, whatever `ddst` and `rhd` stand
for, while `ApplyEdge` writes `Op` of the left row 0 and of the right row 1 (the
destination) for that column; the two values differ, for instance, when `rhd` is 0. -/
theorem ApplyEdgeReduce_reads_undeclared_row :
    (∀ ddst rhd : Int,
      cpu.BinaryReduce.ApplyEdgeReduce ⟨.kSrc, .kDst, .kDst, BinaryAdd, ReduceSum⟩ ddst rhd
          0 1 0 0 (pathData.out_data 1) pathData
        = pathData.out_data 1 + (pathData.lhs_data 0 + pathData.rhs_data rhd)) ∧
      (cpu.BinaryReduce.ApplyEdge ⟨.kSrc, .kDst, .kDst, BinaryAdd, ReduceSum⟩ 0 1 0
          pathData).out_data 1
        = pathData.out_data 1 + (pathData.lhs_data 0 + pathData.rhs_data 1) ∧
      cpu.BinaryReduce.ApplyEdgeReduce ⟨.kSrc, .kDst, .kDst, BinaryAdd, ReduceSum⟩ 0 0
          0 1 0 0 (pathData.out_data 1) pathData
        ≠ (cpu.BinaryReduce.ApplyEdge ⟨.kSrc, .kDst, .kDst, BinaryAdd, ReduceSum⟩ 0 1 0
            pathData).out_data 1 := by
  refine ⟨fun ddst rhd => ?_, by decide, by decide⟩
  simp [cpu.BinaryReduce.ApplyEdgeReduce, cpu.FunctorsTempl.Write, cpu.FunctorsTempl.Op,
    cpu.FunctorsTempl.SelectLeft, Target.Call, pathData, BinaryAdd, ReduceSum, cpu.ptr]

/-- Pointwise form of the broadcast `ApplyEdge`: the slots `row * out_len + tx`,
`0 ≤ tx < out_len`, receive one `Write` of the edge's value for column `tx`; all other slots
keep their content. -/
theorem BcastApplyEdge_out_data {α : Type} (F : cpu.FunctorsTempl α) (e : Edge)
    (b : BcastGData α) (p : Int) :
    (cpu.BinaryReduceBcast.ApplyEdge F e.src e.dst e.eid b).out_data p
      = if 0 ≤ p - bcastOutRow F b e * b.out_len ∧ p - bcastOutRow F b e * b.out_len < b.out_len
        then F.Reducer (b.out_data p) (bcastEdgeValue F b e (p - bcastOutRow F b e * b.out_len))
        else b.out_data p := by
  have h := forLoop_Write F (bcastOutRow F b e * b.out_len) (fun tx => bcastEdgeValue F b e tx)
    b.out_len.toNat 0 b.out_data p
  have h2 : (cpu.BinaryReduceBcast.ApplyEdge F e.src e.dst e.eid b).out_data
      = forLoop (fun tx mem => F.Write mem (bcastOutRow F b e * b.out_len + (tx : Int))
          (bcastEdgeValue F b e tx)) b.out_len.toNat 0 b.out_data := by
    cases hl : b.lhs_mapping <;> cases hr : b.rhs_mapping <;> cases ho : b.out_mapping <;>
      simp [cpu.BinaryReduceBcast.ApplyEdge, bcastOutRow, bcastEdgeValue, translate, hl, hr, ho,
        cpu.FunctorsTempl.GetId]
  rw [h2, h]
  have : (bcastOutRow F b e * b.out_len + ((0 : Nat) : Int) ≤ p ∧
      p < bcastOutRow F b e * b.out_len + ((0 : Nat) : Int) + (b.out_len.toNat : Int)) ↔
      (0 ≤ p - bcastOutRow F b e * b.out_len ∧ p - bcastOutRow F b e * b.out_len < b.out_len) := by
    generalize bcastOutRow F b e * b.out_len = off
    omega
  simp only [this]

/-- C12. For every broadcast bundle, edge triple and `feat_idx` in `[0, out_len)`,
`BinaryReduceBcast.ApplyEdgeReduce` writes to `outval`, through the reducer, exactly the value
that `BinaryReduceBcast.ApplyEdge` writes to column `feat_idx` of the edge's output row: the
operator on the same operand rows at the same `UnravelRavel`-translated offsets. -/
theorem BinaryReduceBcast_ApplyEdgeReduce_column {α : Type} (F : cpu.FunctorsTempl α)
    (src dst eid feat_idx : Int) (outval : α) (gdata : BcastGData α)
    (h0 : 0 ≤ feat_idx) (h1 : feat_idx < gdata.out_len) :
    let len := gdata.data_len
    let lid := translate gdata.lhs_mapping (F.LeftSelector.Call src eid dst)
    let rid := translate gdata.rhs_mapping (F.RightSelector.Call src eid dst)
    let oid := translate gdata.out_mapping (F.OutSelector.Call src eid dst)
    let r := cpu.UnravelRavel feat_idx gdata.ndim gdata.out_shape gdata.out_stride
      gdata.lhs_shape gdata.lhs_stride gdata.rhs_shape gdata.rhs_stride 0 0
    let v := F.BinaryOp
      (fun k => gdata.lhs_data (lid * gdata.lhs_len * len + r.1 * len + k))
      (fun k => gdata.rhs_data (rid * gdata.rhs_len * len + r.2 * len + k)) len
    cpu.BinaryReduceBcast.ApplyEdgeReduce F src dst eid feat_idx outval gdata
        = F.Reducer outval v ∧
      (cpu.BinaryReduceBcast.ApplyEdge F src dst eid gdata).out_data (oid * gdata.out_len + feat_idx)
        = F.Reducer (gdata.out_data (oid * gdata.out_len + feat_idx)) v := by
  intro len lid rid oid r v
  constructor
  · cases hl : gdata.lhs_mapping <;> cases hr : gdata.rhs_mapping <;>
      simp [cpu.BinaryReduceBcast.ApplyEdgeReduce, cpu.FunctorsTempl.Write, cpu.FunctorsTempl.Op,
        cpu.FunctorsTempl.SelectLeft, cpu.FunctorsTempl.SelectRight, cpu.FunctorsTempl.GetId,
        translate, hl, hr, v, r, lid, rid, len] <;> rfl
  · have key := BcastApplyEdge_out_data F ⟨src, dst, eid⟩ gdata (oid * gdata.out_len + feat_idx)
    have hrow : bcastOutRow F gdata ⟨src, dst, eid⟩ = oid := rfl
    have e1 : oid * gdata.out_len + feat_idx - oid * gdata.out_len = feat_idx := by ring
    rw [hrow, e1, if_pos ⟨h0, h1⟩] at key
    rw [key]
    rfl

theorem BinaryReduceBcast_ApplyEdgeReduce_column_witness :
    cpu.BinaryReduceBcast.ApplyEdgeReduce ⟨.kSrc, .kDst, .kDst, BinaryAdd, ReduceSum⟩
        0 1 0 4 (bcastData.out_data 10) bcastData
      = (cpu.BinaryReduceBcast.ApplyEdge ⟨.kSrc, .kDst, .kDst, BinaryAdd, ReduceSum⟩
          0 1 0 bcastData).out_data 10 := by
  have h := BinaryReduceBcast_ApplyEdgeReduce_column ⟨.kSrc, .kDst, .kDst, BinaryAdd, ReduceSum⟩
    0 1 0 4 (bcastData.out_data 10) bcastData (by decide) (by decide)
  exact h.1.trans h.2.symm

/-- C13. `BinaryReduce.ApplyEdge` leaves `lhs_data`, `rhs_data` and the three mappings (and
the sizes) unchanged, and every slot of `out_data` outside the `D = x_length` positions
`oid*D .. oid*D + D - 1` of the translated output row keeps its prior value. -/
theorem BinaryReduce_ApplyEdge_frame {α : Type} (F : cpu.FunctorsTempl α) (src dst eid : Int)
    (gdata : GData α) :
    (cpu.BinaryReduce.ApplyEdge F src dst eid gdata).lhs_data = gdata.lhs_data ∧
    (cpu.BinaryReduce.ApplyEdge F src dst eid gdata).rhs_data = gdata.rhs_data ∧
    (cpu.BinaryReduce.ApplyEdge F src dst eid gdata).lhs_mapping = gdata.lhs_mapping ∧
    (cpu.BinaryReduce.ApplyEdge F src dst eid gdata).rhs_mapping = gdata.rhs_mapping ∧
    (cpu.BinaryReduce.ApplyEdge F src dst eid gdata).out_mapping = gdata.out_mapping ∧
    (cpu.BinaryReduce.ApplyEdge F src dst eid gdata).x_length = gdata.x_length ∧
    (cpu.BinaryReduce.ApplyEdge F src dst eid gdata).data_len = gdata.data_len ∧
    (∀ p : Int,
      (p < translate gdata.out_mapping (F.OutSelector.Call src eid dst) * gdata.x_length ∨
        translate gdata.out_mapping (F.OutSelector.Call src eid dst) * gdata.x_length
          + gdata.x_length ≤ p) →
      (cpu.BinaryReduce.ApplyEdge F src dst eid gdata).out_data p = gdata.out_data p) := by
  refine ⟨rfl, rfl, rfl, rfl, rfl, rfl, rfl, fun p hp => ?_⟩
  have key := ApplyEdge_out_data F ⟨src, dst, eid⟩ gdata p
  have hrow : outRow F gdata ⟨src, dst, eid⟩
      = translate gdata.out_mapping (F.OutSelector.Call src eid dst) := rfl
  rw [hrow] at key
  rw [key, if_neg]
  generalize translate gdata.out_mapping (F.OutSelector.Call src eid dst) * gdata.x_length
    = off at hp
  omega

/-! ### Size-1 dimensions and the accumulated side of `UnravelRavel` -/

/-- C14 (failing input). With `out_shape = [2,3]`, `lhs_shape = [1,3]`, `rhs_shape = [2,3]`
and row-major strides, the left operand has extent 1 in dimension 0; the output indices 0
and 3 have the coordinates `(0,0)` and `(1,0)`, which differ only in dimension 0; yet
`UnravelRavel` returns the left offsets 0 and 3 for them. -/
theorem UnravelRavel_size_one_dim_advances :
    BcastCompatible 2 (ofList [2, 3]) (ofList [1, 3]) (ofList [2, 3]) ∧
      RowMajor 2 (ofList [2, 3]) (ofList [3, 1]) ∧
      RowMajor 2 (ofList [1, 3]) (ofList [3, 1]) ∧
      ofList [1, 3] 0 = 1 ∧
      cpu.Unravel 0 2 (ofList [2, 3]) (ofList [3, 1]) (fun _ => 0) 0 = 0 ∧
      cpu.Unravel 3 2 (ofList [2, 3]) (ofList [3, 1]) (fun _ => 0) 0 = 1 ∧
      cpu.Unravel 0 2 (ofList [2, 3]) (ofList [3, 1]) (fun _ => 0) 1
        = cpu.Unravel 3 2 (ofList [2, 3]) (ofList [3, 1]) (fun _ => 0) 1 ∧
      (cpu.UnravelRavel 0 2 (ofList [2, 3]) (ofList [3, 1]) (ofList [1, 3]) (ofList [3, 1])
        (ofList [2, 3]) (ofList [3, 1]) 0 0).1 = 0 ∧
      (cpu.UnravelRavel 3 2 (ofList [2, 3]) (ofList [3, 1]) (ofList [1, 3]) (ofList [3, 1])
        (ofList [2, 3]) (ofList [3, 1]) 0 0).1 = 3 := by
  decide

/-- C16. In `UnravelRavel` called with zeroed accumulators on a row-major output shape and an
index `idx ≥ 0` (in particular every `idx` in `[0, prod(out_shape))`), the operand that is
accumulated per dimension (the right one when the leading strides of the output and of the
left operand are equal, the left one otherwise), if each of its extents is the output extent
or 1, gets
the sum over `d` of `min(i_d, sh_d - 1) * st_d`, that is
`Ravel(Unravel(idx, out_shape, out_stride), operand_shape, operand_stride)`. -/
theorem UnravelRavel_accumulated_side (idx : Int) (ndim : Nat)
    (out_shape out_stride lhs_shape lhs_stride rhs_shape rhs_stride : Nat → Int)
    (tmp : Nat → Int)
    (hpos : PosShape ndim out_shape) (hrm : RowMajor ndim out_shape out_stride)
    (h0 : 0 ≤ idx) :
    (out_stride 0 = lhs_stride 0 →
      (∀ d < ndim, rhs_shape d = out_shape d ∨ rhs_shape d = 1) →
      (cpu.UnravelRavel idx ndim out_shape out_stride lhs_shape lhs_stride
          rhs_shape rhs_stride 0 0).2
        = ∑ d in Finset.range ndim,
            min ((idx.tdiv (out_stride d)).tmod (out_shape d)) (rhs_shape d - 1) * rhs_stride d ∧
      (cpu.UnravelRavel idx ndim out_shape out_stride lhs_shape lhs_stride
          rhs_shape rhs_stride 0 0).2
        = cpu.Ravel (cpu.Unravel idx ndim out_shape out_stride tmp) ndim rhs_shape rhs_stride) ∧
    (out_stride 0 ≠ lhs_stride 0 →
      (∀ d < ndim, lhs_shape d = out_shape d ∨ lhs_shape d = 1) →
      (cpu.UnravelRavel idx ndim out_shape out_stride lhs_shape lhs_stride
          rhs_shape rhs_stride 0 0).1
        = ∑ d in Finset.range ndim,
            min ((idx.tdiv (out_stride d)).tmod (out_shape d)) (lhs_shape d - 1) * lhs_stride d ∧
      (cpu.UnravelRavel idx ndim out_shape out_stride lhs_shape lhs_stride
          rhs_shape rhs_stride 0 0).1
        = cpu.Ravel (cpu.Unravel idx ndim out_shape out_stride tmp) ndim lhs_shape lhs_stride) := by
  constructor
  · intro hbr hx
    have h : (cpu.UnravelRavel idx ndim out_shape out_stride lhs_shape lhs_stride
        rhs_shape rhs_stride 0 0).2
        = cpu.Ravel (cpu.Unravel idx ndim out_shape out_stride tmp) ndim rhs_shape rhs_stride := by
      unfold cpu.UnravelRavel
      rw [if_pos hbr]
      exact UnravelRavel_loop_eq_Ravel hrm hpos h0 rhs_shape rhs_stride hx tmp
    refine ⟨?_, h⟩
    rw [h, Ravel_Unravel_eq_sum, Finset.range_eq_Ico]
  · intro hbr hx
    have h : (cpu.UnravelRavel idx ndim out_shape out_stride lhs_shape lhs_stride
        rhs_shape rhs_stride 0 0).1
        = cpu.Ravel (cpu.Unravel idx ndim out_shape out_stride tmp) ndim lhs_shape lhs_stride := by
      unfold cpu.UnravelRavel
      rw [if_neg hbr]
      exact UnravelRavel_loop_eq_Ravel hrm hpos h0 lhs_shape lhs_stride hx tmp
    refine ⟨?_, h⟩
    rw [h, Ravel_Unravel_eq_sum, Finset.range_eq_Ico]

theorem UnravelRavel_accumulated_side_witness :
    (cpu.UnravelRavel 4 2 (ofList [2, 3]) (ofList [3, 1]) (ofList [2, 3]) (ofList [3, 1])
        (ofList [1, 3]) (ofList [3, 1]) 0 0).2
      = cpu.Ravel (cpu.Unravel 4 2 (ofList [2, 3]) (ofList [3, 1]) (fun _ => 0)) 2
          (ofList [1, 3]) (ofList [3, 1]) ∧
    (cpu.UnravelRavel 4 2 (ofList [2, 3]) (ofList [3, 1]) (ofList [2, 1]) (ofList [1, 1])
        (ofList [2, 3]) (ofList [3, 1]) 0 0).1
      = cpu.Ravel (cpu.Unravel 4 2 (ofList [2, 3]) (ofList [3, 1]) (fun _ => 0)) 2
          (ofList [2, 1]) (ofList [1, 1]) :=
  ⟨((UnravelRavel_accumulated_side 4 2 (ofList [2, 3]) (ofList [3, 1]) (ofList [2, 3])
      (ofList [3, 1]) (ofList [1, 3]) (ofList [3, 1]) (fun _ => 0) (by decide) (by decide)
      (by decide)).1
        (by decide) (by decide)).2,
    ((UnravelRavel_accumulated_side 4 2 (ofList [2, 3]) (ofList [3, 1]) (ofList [2, 1])
      (ofList [1, 1]) (ofList [2, 3]) (ofList [3, 1]) (fun _ => 0) (by decide) (by decide)
      (by decide)).2
        (by decide) (by decide)).2⟩

/-! ### Null mappings and accessors -/

/-- C15. A null mapping acts as the identity mapping: if `m` is the identity array on
`[0, n)` and the id that a selector yields for the edge lies in `[0, n)`, then
`BinaryReduce.ApplyEdge` with that mapping null produces the same `out_data` as with that
mapping set to `m`; this holds for `lhs_mapping`, for `rhs_mapping` and for `out_mapping`. -/
theorem ApplyEdge_null_mapping_identity {α : Type} (F : cpu.FunctorsTempl α)
    (src dst eid : Int) (g : GData α) (m : Int → Int) (n : Int)
    (hm : ∀ i : Int, 0 ≤ i → i < n → m i = i) :
    (g.lhs_mapping = none →
      0 ≤ F.LeftSelector.Call src eid dst → F.LeftSelector.Call src eid dst < n →
      (cpu.BinaryReduce.ApplyEdge F src dst eid { g with lhs_mapping := some m }).out_data
        = (cpu.BinaryReduce.ApplyEdge F src dst eid g).out_data) ∧
    (g.rhs_mapping = none →
      0 ≤ F.RightSelector.Call src eid dst → F.RightSelector.Call src eid dst < n →
      (cpu.BinaryReduce.ApplyEdge F src dst eid { g with rhs_mapping := some m }).out_data
        = (cpu.BinaryReduce.ApplyEdge F src dst eid g).out_data) ∧
    (g.out_mapping = none →
      0 ≤ F.OutSelector.Call src eid dst → F.OutSelector.Call src eid dst < n →
      (cpu.BinaryReduce.ApplyEdge F src dst eid { g with out_mapping := some m }).out_data
        = (cpu.BinaryReduce.ApplyEdge F src dst eid g).out_data) := by
  refine ⟨fun hnone h0 h1 => ?_, fun hnone h0 h1 => ?_, fun hnone h0 h1 => ?_⟩ <;>
    simp only [cpu.BinaryReduce.ApplyEdge, cpu.FunctorsTempl.GetId, cpu.FunctorsTempl.SelectLeft,
      cpu.FunctorsTempl.SelectRight, cpu.FunctorsTempl.SelectOut, hnone, hm _ h0 h1]

theorem ApplyEdge_null_mapping_identity_witness :
    (cpu.BinaryReduce.ApplyEdge ⟨.kSrc, .kDst, .kDst, BinaryAdd, ReduceSum⟩ 0 1 0
        { pathData with lhs_mapping := some map012 }).out_data
      = (cpu.BinaryReduce.ApplyEdge ⟨.kSrc, .kDst, .kDst, BinaryAdd, ReduceSum⟩ 0 1 0
          pathData).out_data ∧
    (cpu.BinaryReduce.ApplyEdge ⟨.kSrc, .kDst, .kDst, BinaryAdd, ReduceSum⟩ 0 1 0
        { pathData with rhs_mapping := some map012 }).out_data
      = (cpu.BinaryReduce.ApplyEdge ⟨.kSrc, .kDst, .kDst, BinaryAdd, ReduceSum⟩ 0 1 0
          pathData).out_data ∧
    (cpu.BinaryReduce.ApplyEdge ⟨.kSrc, .kDst, .kDst, BinaryAdd, ReduceSum⟩ 0 1 0
        { pathData with out_mapping := some map012 }).out_data
      = (cpu.BinaryReduce.ApplyEdge ⟨.kSrc, .kDst, .kDst, BinaryAdd, ReduceSum⟩ 0 1 0
          pathData).out_data := by
  have hm : ∀ i : Int, 0 ≤ i → i < 3 → map012 i = i := by
    intro i h0 h1
    have : i = 0 ∨ i = 1 ∨ i = 2 := by omega
    rcases this with rfl | rfl | rfl <;> rfl
  have h := ApplyEdge_null_mapping_identity ⟨.kSrc, .kDst, .kDst, BinaryAdd, ReduceSum⟩ 0 1 0
    pathData map012 3 hm
  exact ⟨h.1 rfl (by decide) (by decide), h.2.1 rfl (by decide) (by decide),
    h.2.2 rfl (by decide) (by decide)⟩

/-- C17 (failing input). On a bundle whose `out_mapping` is the array `[5, 6, 7]`,
`BinaryReduce.GetOutOffset` returns for the output id 1 whatever the undeclared member
`GetID` returns (not 6, for instance, if `GetID` returned the id it is given), while
`ApplyEdge` uses the row `out_mapping[1] = 6` for an edge whose
output selector yields 1, the row that `BinaryReduceBcast.GetOutOffset` (which calls
`GetId`) returns.  With a null `out_mapping` both accessors return the id itself, and
`GetFeatSize` returns `x_length`, respectively `out_len`. -/
theorem BinaryReduce_GetOutOffset_undeclared_GetID :
    (∀ GetID : Int → (Int → Int) → Int,
      cpu.BinaryReduce.GetOutOffset GetID 1 { pathData with out_mapping := some map567 }
        = GetID 1 map567) ∧
      cpu.BinaryReduce.GetOutOffset (fun id _ => id) 1
          { pathData with out_mapping := some map567 } ≠ 6 ∧
      outRow ⟨.kSrc, .kDst, .kDst, BinaryAdd, ReduceSum⟩
          { pathData with out_mapping := some map567 } ⟨0, 1, 0⟩ = 6 ∧
      cpu.BinaryReduceBcast.GetOutOffset 1 { bcastData with out_mapping := some map567 } = 6 ∧
      (∀ (GetID : Int → (Int → Int) → Int) (oid : Int),
        cpu.BinaryReduce.GetOutOffset GetID oid pathData = oid) ∧
      (∀ oid : Int, cpu.BinaryReduceBcast.GetOutOffset oid bcastData = oid) ∧
      cpu.BinaryReduce.GetFeatSize pathData = pathData.x_length ∧
      cpu.BinaryReduceBcast.GetFeatSize bcastData = bcastData.out_len := by
  refine ⟨fun _ => rfl, by decide, by decide, by decide, fun _ _ => rfl, fun _ => rfl, rfl, rfl⟩

/-! ### Operand offsets of the broadcast kernel -/

/-- C18 (failing input). With `out_shape = [2,3]`, `lhs_shape = [2,1]`, `rhs_shape = [1,3]` and
row-major strides, a broadcast-compatible configuration, the leading strides of the output
and of the left operand differ, `UnravelRavel` takes its second branch and returns for the
output index 4 the right offset 4, which is not below `rhs_len = prod(rhs_shape) = 3`
(per-dimension accumulation gives 1); `BinaryReduceBcast.ApplyEdge` for the edge `0 → 1` then
reads `rhs_data[1 * 3 + 4]`, an element of the row of entity 2. -/
theorem UnravelRavel_offset_out_of_range :
    BcastCompatible 2 (ofList [2, 3]) (ofList [2, 1]) (ofList [1, 3]) ∧
      RowMajor 2 (ofList [2, 3]) (ofList [3, 1]) ∧
      RowMajor 2 (ofList [2, 1]) (ofList [1, 1]) ∧
      RowMajor 2 (ofList [1, 3]) (ofList [3, 1]) ∧
      numel 2 (ofList [1, 3]) = 3 ∧
      cpu.UnravelRavel 4 2 (ofList [2, 3]) (ofList [3, 1]) (ofList [2, 1]) (ofList [1, 1])
        (ofList [1, 3]) (ofList [3, 1]) 0 0 = (1, 4) ∧
      cpu.Ravel (cpu.Unravel 4 2 (ofList [2, 3]) (ofList [3, 1]) (fun _ => 0)) 2
        (ofList [1, 3]) (ofList [3, 1]) = 1 ∧
      (cpu.BinaryReduceBcast.ApplyEdge ⟨.kSrc, .kDst, .kDst, BinaryAdd, ReduceSum⟩ 0 1 0
          crossBcastData).out_data 10
        = crossBcastData.out_data 10
          + (crossBcastData.lhs_data (0 * 2 + 1) + crossBcastData.rhs_data (1 * 3 + 4)) := by
  refine ⟨by decide, by decide, by decide, by decide, ?_, by decide, by decide, by decide⟩
  simp [numel, Finset.prod_range_succ, ofList]

/-! ### The broadcast kernel without broadcasting -/

/-- When neither operand broadcasts, `UnravelRavel` returns the output index for both. -/
theorem UnravelRavel_no_broadcast (idx : Int) (ndim : Nat)
    (out_shape out_stride lhs_shape lhs_stride rhs_shape rhs_stride : Nat → Int)
    (hpos : PosShape ndim out_shape) (hrm : RowMajor ndim out_shape out_stride)
    (hl : ∀ d < ndim, lhs_shape d = out_shape d ∧ lhs_stride d = out_stride d)
    (hr : ∀ d < ndim, rhs_shape d = out_shape d ∧ rhs_stride d = out_stride d)
    (h0 : 0 ≤ idx) (hlt : idx < numel ndim out_shape) :
    cpu.UnravelRavel idx ndim out_shape out_stride lhs_shape lhs_stride rhs_shape rhs_stride 0 0
      = (idx, idx) := by
  have hsame : ∀ x_shape x_stride : Nat → Int,
      (∀ d < ndim, x_shape d = out_shape d ∧ x_stride d = out_stride d) →
      forLoop (cpu.UnravelRavel.step idx out_shape out_stride x_shape x_stride) ndim 0 0
        = idx := by
    intro x_shape x_stride hx
    rw [UnravelRavel_loop_eq_Ravel hrm hpos h0 x_shape x_stride
      (fun d hd => Or.inl (hx d hd).1) (fun _ => 0), Ravel_Unravel_eq_sum]
    conv_rhs => rw [← mixed_radix_total hrm hpos h0 hlt]
    refine Finset.sum_congr rfl (fun j hj => ?_)
    have hj' : j < ndim := (Finset.mem_Ico.mp hj).2
    have := coord_lt hrm hpos h0 hj'
    rw [(hx j hj').1, (hx j hj').2, min_eq_left (by omega)]
  unfold cpu.UnravelRavel
  split
  · exact Prod.ext rfl (hsame rhs_shape rhs_stride hr)
  · exact Prod.ext (hsame lhs_shape lhs_stride hl) rfl

/-- C19. For a broadcast bundle whose left, right and output shapes and row-major strides are
all equal, with `lhs_len = rhs_len = out_len = prod(out_shape)`, `BinaryReduceBcast.ApplyEdge`
produces exactly the `out_data` that `BinaryReduce.ApplyEdge` produces on the plain bundle
with `x_length = out_len` and the same `data_len`, buffers and mappings, for every edge
triple. -/
theorem BinaryReduceBcast_no_broadcast_eq_BinaryReduce {α : Type} (F : cpu.FunctorsTempl α)
    (src dst eid : Int) (b : BcastGData α)
    (hpos : PosShape b.ndim b.out_shape) (hrm : RowMajor b.ndim b.out_shape b.out_stride)
    (hl : ∀ d < b.ndim, b.lhs_shape d = b.out_shape d ∧ b.lhs_stride d = b.out_stride d)
    (hr : ∀ d < b.ndim, b.rhs_shape d = b.out_shape d ∧ b.rhs_stride d = b.out_stride d)
    (hllen : b.lhs_len = b.out_len) (hrlen : b.rhs_len = b.out_len)
    (hnumel : b.out_len = numel b.ndim b.out_shape) :
    (cpu.BinaryReduceBcast.ApplyEdge F src dst eid b).out_data
      = (cpu.BinaryReduce.ApplyEdge F src dst eid b.toGData).out_data := by
  funext p
  have k1 := BcastApplyEdge_out_data F ⟨src, dst, eid⟩ b p
  have k2 := ApplyEdge_out_data F ⟨src, dst, eid⟩ b.toGData p
  have hrow : outRow F b.toGData ⟨src, dst, eid⟩ = bcastOutRow F b ⟨src, dst, eid⟩ := rfl
  have hx : b.toGData.x_length = b.out_len := rfl
  have ho : b.toGData.out_data = b.out_data := rfl
  rw [hrow, hx, ho] at k2
  show (cpu.BinaryReduceBcast.ApplyEdge F (Edge.mk src dst eid).src (Edge.mk src dst eid).dst
      (Edge.mk src dst eid).eid b).out_data p
    = (cpu.BinaryReduce.ApplyEdge F (Edge.mk src dst eid).src (Edge.mk src dst eid).dst
      (Edge.mk src dst eid).eid b.toGData).out_data p
  rw [k1, k2]
  by_cases hin : 0 ≤ p - bcastOutRow F b ⟨src, dst, eid⟩ * b.out_len ∧
      p - bcastOutRow F b ⟨src, dst, eid⟩ * b.out_len < b.out_len
  · rw [if_pos hin, if_pos hin]
    have hur := UnravelRavel_no_broadcast (p - bcastOutRow F b ⟨src, dst, eid⟩ * b.out_len)
      b.ndim b.out_shape b.out_stride b.lhs_shape b.lhs_stride b.rhs_shape b.rhs_stride
      hpos hrm hl hr hin.1 (hnumel ▸ hin.2)
    simp only [bcastEdgeValue, edgeValue, hur, hllen, hrlen]
    rfl
  · rw [if_neg hin, if_neg hin]

theorem BinaryReduceBcast_no_broadcast_eq_BinaryReduce_witness :
    (cpu.BinaryReduceBcast.ApplyEdge ⟨.kSrc, .kDst, .kDst, BinaryAdd, ReduceSum⟩ 0 1 0
        plainBcastData).out_data
      = (cpu.BinaryReduce.ApplyEdge ⟨.kSrc, .kDst, .kDst, BinaryAdd, ReduceSum⟩ 0 1 0
          plainBcastData.toGData).out_data :=
  BinaryReduceBcast_no_broadcast_eq_BinaryReduce ⟨.kSrc, .kDst, .kDst, BinaryAdd, ReduceSum⟩
    0 1 0 plainBcastData (by decide) (by decide) (by decide) (by decide) rfl rfl
    (by simp [numel, Finset.prod_range_succ, ofList, plainBcastData])

end kernel
end dgl
